import Mathlib

set_option maxHeartbeats 1000000

/-!
Verification development for the vnpy historical-simulation (backtesting)
and parameter-optimization engine.

The repository snapshot contains two notebooks (`examples/spread_backtesting/
backtesting.ipynb`, `examples/alpha_research/download_data_rq.ipynb`) and the
package metadata.  The notebooks are callers: the engine itself
(`BacktestingEngine`, the order-matching simulator, the PnL ledger, the
statistics calculator and the optimizers invoked through `run_backtesting`,
`calculate_statistics`, `run_bf_optimization`, `run_ga_optimization`) is not
part of the snapshot.  The engine is therefore modelled from the written
specification, while the symbol-conversion loop of `download_data_rq.ipynb`
is embedded directly from its source.

Strings are modelled as lists of characters; prices and volumes as exact
rationals.
-/

/- ------------------------------------------------------------------ -/
/- Part 1: the symbol-conversion loop of download_data_rq.ipynb        -/
/- ------------------------------------------------------------------ -/

/-- Boolean test that the first list is an initial segment of the second. -/
def isPre : List Char → List Char → Bool
  | [], _ => true
  | _ :: _, [] => false
  | a :: as, b :: bs => a == b && isPre as bs

/-- Model of Python `str.replace(pat, rep)`: replace every non-overlapping
occurrence of `pat`, scanning left to right; the replacement text is never
rescanned.  (For the empty pattern Python inserts `rep` everywhere; the
notebook only uses the four-character patterns `XSHG` and `XSHE`, so the
empty pattern is mapped to the identity here.) -/
def replaceAll (pat rep : List Char) : List Char → List Char
  | [] => []
  | c :: rest =>
    if isPre pat (c :: rest) = true ∧ pat ≠ [] then
      rep ++ replaceAll pat rep (rest.drop (pat.length - 1))
    else
      c :: replaceAll pat rep rest
termination_by s => s.length
decreasing_by
  · simp only [List.length_cons, List.length_drop]
    omega
  · simp

/-- Embedded from `download_data_rq.ipynb`:
`vt_symbol = rq_symbol.replace("XSHG", "SSE").replace("XSHE", "SZSE")`. -/
def rqToVt (rqSymbol : List Char) : List Char :=
  replaceAll ['X', 'S', 'H', 'E'] ['S', 'Z', 'S', 'E']
    (replaceAll ['X', 'S', 'H', 'G'] ['S', 'S', 'E'] rqSymbol)

/-- Embedded from `download_data_rq.ipynb`: the conversion loop
`for rq_symbol in rq_symbols: ... vt_symbols.append(vt_symbol)`. -/
def convertSymbols (rqSymbols : List (List Char)) : List (List Char) :=
  rqSymbols.foldl (fun acc rq => acc ++ [rqToVt rq]) []

/-- The claim's reading of the conversion: a single simultaneous left-to-right
pass replacing every occurrence of `XSHG` by `SSE` and every occurrence of
`XSHE` by `SZSE`.  Stated from the claim's words, to be compared with the
source-embedded `rqToVt`. -/
def specSimulRepl : List Char → List Char
  | [] => []
  | c :: rest =>
    if isPre ['X', 'S', 'H', 'G'] (c :: rest) = true then
      'S' :: 'S' :: 'E' :: specSimulRepl (rest.drop 3)
    else if isPre ['X', 'S', 'H', 'E'] (c :: rest) = true then
      'S' :: 'Z' :: 'S' :: 'E' :: specSimulRepl (rest.drop 3)
    else
      c :: specSimulRepl rest
termination_by s => s.length
decreasing_by
  · simp only [List.length_cons, List.length_drop]
    omega
  · simp only [List.length_cons, List.length_drop]
    omega
  · simp

/-- Boolean test that `pat` occurs as a contiguous sublist (Python `in`). -/
def containsSub (pat : List Char) : List Char → Bool
  | [] => pat.isEmpty
  | c :: rest => isPre pat (c :: rest) || containsSub pat rest

/- ------------------------------------------------------------------ -/
/- Part 2: data model of the backtesting engine                        -/
/- ------------------------------------------------------------------ -/

/-- Modelled from the spec: `PriceBar` of section 3 (the engine's bar type is
not in the snapshot).  The run replays daily bars: one bar per calendar date,
dates strictly increasing, so each bar closes one calendar day. -/
structure PriceBar where
  date : Nat
  open_ : ℚ
  high : ℚ
  low : ℚ
  close : ℚ
  volume : ℚ
deriving DecidableEq

/-- Modelled from the spec: order direction. -/
inductive Direction
  | buy
  | sell
deriving DecidableEq

/-- Modelled from the spec: order intent (open or close a position leg). -/
inductive Intent
  | openPos
  | closePos
deriving DecidableEq

/-- Modelled from the spec: order kind (market / limit / stop). -/
inductive OrderKind
  | market
  | limit
  | stop
deriving DecidableEq

/-- Modelled from the spec: order status, one of
{Submitted, PartiallyFilled, Filled, Cancelled, Rejected}. -/
inductive OrderStatus
  | submitted
  | partFilled
  | filled
  | cancelled
  | rejected
deriving DecidableEq

/-- Rank of a status in the monotone order-lifecycle order: active states
first, terminal states (Filled, Cancelled, Rejected) last. -/
def statusRank : OrderStatus → Nat
  | .submitted => 0
  | .partFilled => 1
  | .filled => 2
  | .cancelled => 2
  | .rejected => 2

/-- Terminal statuses are never left once reached. -/
def isTerminalStatus : OrderStatus → Bool
  | .filled => true
  | .cancelled => true
  | .rejected => true
  | _ => false

/-- Modelled from the spec: an order intent as issued by a strategy through
the command surface. -/
structure OrderReq where
  direction : Direction
  intent : Intent
  kind : OrderKind
  price : ℚ
  volume : ℚ
deriving DecidableEq

/-- Modelled from the spec: `Order` of section 3. -/
structure Order where
  id : Nat
  direction : Direction
  intent : Intent
  kind : OrderKind
  price : ℚ
  volume : ℚ
  status : OrderStatus
deriving DecidableEq

/-- Modelled from the spec: `Trade` of section 3. -/
structure TradeRec where
  order_id : Nat
  fill_price : ℚ
  fill_volume : ℚ
  timestamp : Nat
  commission : ℚ
deriving DecidableEq

/-- Modelled from the spec: `Position` of section 3 (single instrument;
`realized_pnl` is cumulative over the run). -/
structure Position where
  net_volume : ℚ
  average_cost : ℚ
  realized_pnl : ℚ
deriving DecidableEq

/-- Modelled from the spec: `DailyResult` of section 3. -/
structure DailyResult where
  date : Nat
  close_price : ℚ
  trade_count : Nat
  commission : ℚ
  realized_pnl : ℚ
  unrealized_pnl_delta : ℚ
  net_pnl : ℚ
deriving DecidableEq

/-- Modelled from the spec: errors of the taxonomy of section 7. -/
inductive SimError
  | invalidOrder
  | dataGap
  | strategyRuntime
deriving DecidableEq

/-- Modelled from the spec: engine configuration (commission rates per leg,
slippage for market fills, price tick for snapping, same-bar expiry policy). -/
structure EngineConfig where
  rateOpen : ℚ
  rateClose : ℚ
  slippage : ℚ
  pricetick : ℚ
  expireSameBar : Bool
deriving DecidableEq

/-- Modelled from the spec: the mutable state of one trial.  `orders` is the
append-only order log (a map from order id, ids below `nextId`); `pending` the
FIFO book of active order ids; `errors` the log of raised simulation errors.
`prevRealized`/`prevUnrealized` hold the ledger marks at the previous day
close, `dayTrades`/`dayCommission` the counters of the running day. -/
structure EngineState where
  orders : Nat → Option Order
  pending : List Nat
  trades : List TradeRec
  pos : Position
  prevRealized : ℚ
  prevUnrealized : ℚ
  dayTrades : Nat
  dayCommission : ℚ
  capital : ℚ
  daily : List DailyResult
  nextId : Nat
  errors : List SimError

/-- Modelled from the spec: initial state of a trial with a given starting
capital. -/
def initState (capital : ℚ) : EngineState :=
  { orders := fun _ => none
    pending := []
    trades := []
    pos := { net_volume := 0, average_cost := 0, realized_pnl := 0 }
    prevRealized := 0
    prevUnrealized := 0
    dayTrades := 0
    dayCommission := 0
    capital := capital
    daily := []
    nextId := 0
    errors := [] }

/-- Point update of the order log. -/
def updateOrd (m : Nat → Option Order) (i : Nat) (o : Order) : Nat → Option Order :=
  fun j => if j = i then some o else m j

/-- Total fill volume recorded for one order id. -/
def sumVol (i : Nat) (ts : List TradeRec) : ℚ :=
  ((ts.filter (fun t => t.order_id == i)).map (fun t => t.fill_volume)).sum

/- ------------------------------------------------------------------ -/
/- Part 3: order-matching simulator and ledger operations              -/
/- ------------------------------------------------------------------ -/

/-- Modelled from the spec: snap a price to the nearest valid tick
("a non-conforming fill price is snapped to the nearest valid tick before
recording", section 4.3).  A non-positive tick disables snapping. -/
def snapToTick (tick p : ℚ) : ℚ :=
  if 0 < tick then (round (p / tick) : ℤ) * tick else p

/-- Modelled from the spec: commission of one fill,
`rate_open`/`rate_close` applied per leg (section 4.3). -/
def commissionFor (cfg : EngineConfig) (o : Order) (p : ℚ) : ℚ :=
  (match o.intent with
    | .openPos => cfg.rateOpen
    | .closePos => cfg.rateClose) * p * o.volume

/-- Modelled from the spec, section 4.3: does a pending order match the
incoming bar, and at which fill price.
* Limit buy fills fully at the limit price iff `bar.low ≤ order.price`;
  limit sell iff `bar.high ≥ order.price`.
* Market orders (pending since the previous bar) fill at this bar's open,
  adjusted by slippage in the adverse direction, snapped to the tick.
* Stop orders convert once the bar's range touches the trigger and resolve
  as market orders on that same bar: the fill price is the trigger, bounded
  by the bar's open (a gap through the trigger fills at the open), adjusted
  by slippage adversely, snapped to the tick. -/
def fillPriceOpt (cfg : EngineConfig) (bar : PriceBar) (o : Order) : Option ℚ :=
  match o.kind with
  | .limit =>
    match o.direction with
    | .buy => if bar.low ≤ o.price then some o.price else none
    | .sell => if o.price ≤ bar.high then some o.price else none
  | .market =>
    match o.direction with
    | .buy => some (snapToTick cfg.pricetick (bar.open_ + cfg.slippage))
    | .sell => some (snapToTick cfg.pricetick (bar.open_ - cfg.slippage))
  | .stop =>
    match o.direction with
    | .buy =>
      if o.price ≤ bar.high then
        some (snapToTick cfg.pricetick (max o.price bar.open_ + cfg.slippage))
      else none
    | .sell =>
      if bar.low ≤ o.price then
        some (snapToTick cfg.pricetick (min o.price bar.open_ - cfg.slippage))
      else none

/-- Modelled from the spec, section 4.4: ledger update for one trade.  A trade
extending (or opening) exposure in the current direction re-weights the average
cost by volume; a trade reducing or reversing exposure leaves the average cost
and adds `(fill_price - average_cost) * closed_volume * direction_sign` to the
realized PnL; a reversal beyond zero opens the new leg at the fill price. -/
def applyTrade (pos : Position) (dir : Direction) (p v : ℚ) : Position :=
  let s : ℚ := match dir with | .buy => 1 | .sell => -1
  let v0 := pos.net_volume
  if v0 = 0 ∨ (0 < v0 ∧ dir = .buy) ∨ (v0 < 0 ∧ dir = .sell) then
    { net_volume := v0 + s * v
      average_cost := (|v0| * pos.average_cost + v * p) / (|v0| + v)
      realized_pnl := pos.realized_pnl }
  else
    let closed := min v |v0|
    let dsign : ℚ := if 0 < v0 then 1 else -1
    { net_volume := v0 + s * v
      average_cost := if |v0| < v then p else pos.average_cost
      realized_pnl := pos.realized_pnl + (p - pos.average_cost) * closed * dsign }

/-- Modelled from the spec, sections 4.3 and 7: order submission.  A request
with non-positive volume, or non-positive price for a priced kind (limit or
stop), raises `InvalidOrderError` at submission time: the order is recorded
with status Rejected, the error is logged, and nothing else of the state
changes.  A valid request is recorded with status Submitted and enqueued at
the back of the FIFO pending book. -/
def submitOrder (st : EngineState) (r : OrderReq) : EngineState :=
  let o : Order :=
    { id := st.nextId, direction := r.direction, intent := r.intent
      kind := r.kind, price := r.price, volume := r.volume, status := .submitted }
  if 0 < r.volume ∧ (r.kind = .market ∨ 0 < r.price) then
    { st with
        orders := updateOrd st.orders st.nextId o
        pending := st.pending ++ [st.nextId]
        nextId := st.nextId + 1 }
  else
    { st with
        orders := updateOrd st.orders st.nextId { o with status := .rejected }
        errors := st.errors ++ [SimError.invalidOrder]
        nextId := st.nextId + 1 }

/-- Modelled from the spec, section 4.3: attempt to match one pending order id
against the incoming bar.  On a fill the order fills fully: a Trade record is
emitted, the ledger position and the day counters are updated synchronously
and the order becomes Filled; otherwise the id is put back at the end of the
rebuilt pending book, preserving FIFO order. -/
def crossOne (cfg : EngineConfig) (bar : PriceBar) (st : EngineState) (i : Nat) :
    EngineState :=
  match st.orders i with
  | none => st
  | some o =>
    if o.status = .submitted then
      match fillPriceOpt cfg bar o with
      | none => { st with pending := st.pending ++ [i] }
      | some p =>
        let comm := commissionFor cfg o p
        { st with
            orders := updateOrd st.orders i { o with status := .filled }
            trades := st.trades ++
              [{ order_id := i, fill_price := p, fill_volume := o.volume
                 timestamp := bar.date, commission := comm }]
            pos := applyTrade st.pos o.direction p o.volume
            dayTrades := st.dayTrades + 1
            dayCommission := st.dayCommission + comm }
    else st

/-- Modelled from the spec, section 4.3: resolve all pending orders against
the incoming bar in strict submission order (FIFO); later orders see the
position already altered by earlier ones within the same bar. -/
def crossPending (cfg : EngineConfig) (bar : PriceBar) (st : EngineState) :
    EngineState :=
  st.pending.foldl (crossOne cfg bar) { st with pending := [] }

/-- Modelled from the spec, section 4.3: same-bar expiry policy — orders not
filled by the close of the bar they could have matched on are cancelled when
`expireSameBar` is set, and persist (good-till-cancelled) otherwise. -/
def expirePending (cfg : EngineConfig) (st : EngineState) : EngineState :=
  if cfg.expireSameBar then
    { st with
        orders := fun i =>
          match st.orders i with
          | some o =>
            if st.pending.contains i ∧ o.status = .submitted then
              some { o with status := .cancelled }
            else some o
          | none => none
        pending := [] }
  else st

/-- Modelled from the spec, section 4.4: day-close ledger mark.  Unrealized
PnL is marked at the day's closing price; a DailyResult is appended (exactly
one per calendar day of the replayed daily series) and cumulative capital is
carried forward by its `net_pnl`. -/
def markDay (bar : PriceBar) (st : EngineState) : EngineState :=
  let u := st.pos.net_volume * (bar.close - st.pos.average_cost)
  let realizedDelta := st.pos.realized_pnl - st.prevRealized
  let uDelta := u - st.prevUnrealized
  let net := realizedDelta + uDelta - st.dayCommission
  { st with
      prevRealized := st.pos.realized_pnl
      prevUnrealized := u
      dayTrades := 0
      dayCommission := 0
      capital := st.capital + net
      daily := st.daily ++
        [{ date := bar.date, close_price := bar.close, trade_count := st.dayTrades
           commission := st.dayCommission, realized_pnl := realizedDelta
           unrealized_pnl_delta := uDelta, net_pnl := net }] }

/-- Modelled from the spec, section 4.2: strategy interface.  A strategy holds
only its own decision state `σ`; `onStart` runs before the first bar and
`onBar` on each bar; both return the next decision state together with the
order intents to enqueue (intents are never executed synchronously inside the
callback).  The notification-only callbacks (`on_order_update`,
`on_trade_update`, `on_stop`) carry no engine effect and are omitted. -/
structure Strategy (σ : Type) where
  init : σ
  onStart : σ → σ × List OrderReq
  onBar : σ → PriceBar → σ × List OrderReq

/-- Modelled from the spec: processing of one incoming bar — cross the pending
book against the bar (FIFO), apply the expiry policy, enqueue the strategy's
new intents, then close the day in the ledger. -/
def stepBar (cfg : EngineConfig) (bar : PriceBar) (reqs : List OrderReq)
    (st : EngineState) : EngineState :=
  markDay bar ((reqs.foldl submitOrder (expirePending cfg (crossPending cfg bar st))))

/-- One bar of the trial: strategy callback drives the engine step. -/
def stepPair {σ : Type} (cfg : EngineConfig) (strat : Strategy σ)
    (p : σ × EngineState) (bar : PriceBar) : σ × EngineState :=
  ((strat.onBar p.1 bar).1, stepBar cfg bar (strat.onBar p.1 bar).2 p.2)

/-- Replay a bar list from a strategy/engine state pair. -/
def runBars {σ : Type} (cfg : EngineConfig) (strat : Strategy σ)
    (bars : List PriceBar) (p : σ × EngineState) : σ × EngineState :=
  bars.foldl (stepPair cfg strat) p

/-- State pair after `on_start` but before the first bar. -/
def startPair {σ : Type} (strat : Strategy σ) (capital : ℚ) : σ × EngineState :=
  ((strat.onStart strat.init).1,
    (strat.onStart strat.init).2.foldl submitOrder (initState capital))

/-- Modelled from the spec: one full trial — fresh strategy instance and fresh
ledger, replaying the whole bar series from its beginning. -/
def runTrial {σ : Type} (cfg : EngineConfig) (strat : Strategy σ)
    (capital : ℚ) (bars : List PriceBar) : EngineState :=
  (runBars cfg strat bars (startPair strat capital)).2

/-- Modelled from the spec, sections 4 and 5: the trial as a transition
system.  A configuration is the remaining bar series together with the
strategy's decision state and the engine state; one step consumes one bar.
Within one trial all operations are strictly sequential, driven by bar
arrival order. -/
inductive TrialStep {σ : Type} (cfg : EngineConfig) (strat : Strategy σ) :
    List PriceBar × σ × EngineState → List PriceBar × σ × EngineState → Prop
  | bar (b : PriceBar) (bs : List PriceBar) (s : σ) (st : EngineState) :
      TrialStep cfg strat (b :: bs, s, st)
        (bs, (strat.onBar s b).1, stepBar cfg b (strat.onBar s b).2 st)

/-- A complete run: from the start configuration the transition system reaches
the configuration with no bars left, whose engine state is the run's result. -/
def RunsTo {σ : Type} (cfg : EngineConfig) (strat : Strategy σ) (capital : ℚ)
    (bars : List PriceBar) (fin : EngineState) : Prop :=
  ∃ s : σ, Relation.ReflTransGen (TrialStep cfg strat)
    (bars, startPair strat capital) ([], s, fin)

/- ------------------------------------------------------------------ -/
/- Part 4: statistics calculator                                       -/
/- ------------------------------------------------------------------ -/

/-- Mean of a rational list; the empty list yields `0/0 = 0`. -/
def meanQ (l : List ℚ) : ℚ := l.sum / l.length

/-- Population variance of a rational list; `0` on the empty list. -/
def varQ (l : List ℚ) : ℚ :=
  ((l.map (fun x => (x - meanQ l) ^ 2)).sum) / l.length

/-- Standard deviation, as a real number. -/
noncomputable def stddevR (l : List ℚ) : ℝ := Real.sqrt ((varQ l : ℚ) : ℝ)

/-- Modelled from the spec: trading days per year used for annualization. -/
def tradingDaysPerYear : ℚ := 240

/-- Modelled from the spec, section 4.5: Sharpe ratio
`mean(daily_return) / stddev(daily_return) * sqrt(trading_days_per_year)`,
with a zero standard deviation treated as Sharpe = 0. -/
noncomputable def sharpeR (l : List ℚ) : ℝ :=
  if stddevR l = 0 then 0
  else ((meanQ l : ℚ) : ℝ) / stddevR l * Real.sqrt ((tradingDaysPerYear : ℚ) : ℝ)

/-- One step of the maximum-drawdown scan: state is
(cumulative pnl, running peak, max drawdown so far). -/
def ddStep (s : ℚ × ℚ × ℚ) (x : ℚ) : ℚ × ℚ × ℚ :=
  let c := s.1 + x
  let pk := max s.2.1 c
  (c, pk, max s.2.2 (pk - c))

/-- Maximum peak-to-trough decline of the cumulative pnl series. -/
def maxDrawdownQ (l : List ℚ) : ℚ := (l.foldl ddStep (0, 0, 0)).2.2

/-- The daily pnl series a statistics run is computed over. -/
def dailyPnls (ds : List DailyResult) : List ℚ := ds.map (fun d => d.net_pnl)

/-- Modelled from the spec, section 4.5: the performance summary.  The fields
needing a capital base or the trade list (total/annualized return, turnover)
are outside a pure function of the DailyResult sequence and are omitted. -/
structure PerfStats where
  total_days : Nat
  total_net_pnl : ℚ
  max_drawdown : ℚ
  win_rate : ℚ
  profit_loss_ratio : ℚ
  sharpe_ratio : ℝ

/-- The defined zero/neutral statistics result. -/
noncomputable def emptyStats : PerfStats :=
  { total_days := 0, total_net_pnl := 0, max_drawdown := 0, win_rate := 0
    profit_loss_ratio := 0, sharpe_ratio := 0 }

/-- Modelled from the spec, section 4.5: the Statistics Calculator, a pure
function over an ordered DailyResult sequence.  Every quotient is a total
rational division (`x / 0 = 0`), so empty or all-zero input yields the
defined zero/neutral values instead of failing. -/
noncomputable def calcStatistics (ds : List DailyResult) : PerfStats :=
  let pnls := dailyPnls ds
  let profits := pnls.filter (fun x => 0 < x)
  let losses := pnls.filter (fun x => x < 0)
  { total_days := ds.length
    total_net_pnl := pnls.sum
    max_drawdown := maxDrawdownQ pnls
    win_rate := (profits.length : ℚ) / (ds.length : ℚ)
    profit_loss_ratio := meanQ profits / |meanQ losses|
    sharpe_ratio := sharpeR pnls }

/- ------------------------------------------------------------------ -/
/- Part 5: optimization engine                                         -/
/- ------------------------------------------------------------------ -/

/-- Modelled from the spec, section 3: an ordered parameter mapping. -/
def ParameterSet : Type := List (String × ℚ)

/-- Modelled from the spec, section 4.6: the value grid declared by one
parameter schema entry (name, min, max, step). -/
def gridValues (lo hi step : ℚ) : List ℚ :=
  if 0 < step ∧ lo ≤ hi then
    (List.range (Nat.floor ((hi - lo) / step) + 1)).map (fun i => lo + i * step)
  else [lo]

/-- Cartesian product of named parameter grids, first parameter outermost. -/
def cartesian : List (String × List ℚ) → List (List (String × ℚ))
  | [] => [[]]
  | (n, vs) :: rest => vs.flatMap (fun v => (cartesian rest).map (fun ps => (n, v) :: ps))

/-- Modelled from the spec: status of one optimization trial. -/
inductive OptStatus
  | ok
  | failed
deriving DecidableEq

/-- Modelled from the spec, section 4.6: one optimization result.  A `none`
fitness is the worst possible value, carried by failed trials. -/
structure OptResult where
  params : List (String × ℚ)
  fitness : Option ℚ
  status : OptStatus
deriving DecidableEq

/-- Modelled from the spec, sections 4.6 and 7: the trial boundary.  A failure
raised inside the trial (e.g. `StrategyRuntimeError`) is caught here and
converted into a `failed` status with worst-case fitness; it never propagates
to the batch. -/
def runTrialSafe (f : List (String × ℚ) → Except SimError ℚ)
    (p : List (String × ℚ)) : OptResult :=
  match f p with
  | .ok m => { params := p, fitness := some m, status := .ok }
  | .error _ => { params := p, fitness := none, status := .failed }

/-- Modelled from the spec, section 4.6: brute-force search — one independent
trial per combination of the cartesian product of the parameter grids. -/
def bruteForce (f : List (String × ℚ) → Except SimError ℚ)
    (grids : List (String × List ℚ)) : List OptResult :=
  (cartesian grids).map (runTrialSafe f)

/-- Modelled from the spec, section 4.6: the fitness-evaluation phase of one
genetic generation — every individual of the population is evaluated through
the same guarded trial boundary. -/
def gaEvaluate (f : List (String × ℚ) → Except SimError ℚ)
    (pop : List (List (String × ℚ))) : List OptResult :=
  pop.map (runTrialSafe f)

/-- Strict fitness comparison used for ranking and selection: a missing
fitness (failed trial) is below every present one. -/
def fitnessLt : Option ℚ → Option ℚ → Bool
  | none, some _ => true
  | some x, some y => decide (x < y)
  | _, none => false

/-- The ranking order on fitness values: `none` (failed) is the worst. -/
def fitnessLe : Option ℚ → Option ℚ → Prop
  | none, _ => True
  | some _, none => False
  | some x, some y => x ≤ y

/-- Modelled from the spec, section 4.6: a two-individual tournament picks the
individual with the better fitness (the first on a tie). -/
def tournamentPick (a b : OptResult) : OptResult :=
  if fitnessLt a.fitness b.fitness then b else a

/- ------------------------------------------------------------------ -/
/- Part 6: the concrete scenario of spec section 8                     -/
/- ------------------------------------------------------------------ -/

/-- The three ascending daily bars of the spec's concrete scenario. -/
def scnBars : List PriceBar :=
  [ { date := 1, open_ := 100, high := 105, low := 99, close := 104, volume := 1 }
  , { date := 2, open_ := 101, high := 106, low := 100, close := 103, volume := 1 }
  , { date := 3, open_ := 103, high := 108, low := 101, close := 107, volume := 1 } ]

/-- The scenario strategy: submit one limit buy at price 100, volume 1, on
day 1 (issued from `on_start`, so it matches against the day-1 bar). -/
def scnStrategy : Strategy Unit :=
  { init := ()
    onStart := fun s =>
      (s, [{ direction := .buy, intent := .openPos, kind := .limit
             price := 100, volume := 1 }])
    onBar := fun s _ => (s, []) }

/-- The scenario configuration: no commission, no slippage, tick snapping off,
default same-bar expiry. -/
def scnCfg : EngineConfig :=
  { rateOpen := 0, rateClose := 0, slippage := 0, pricetick := 0
    expireSameBar := true }

/-- The scenario run's final engine state. -/
def scnRun : EngineState := runTrial scnCfg scnStrategy 1000000 scnBars

/-- A concrete always-succeeding trial function for optimization witnesses. -/
def okTrial : List (String × ℚ) → Except SimError ℚ :=
  fun p => .ok ((p.map (fun q => q.2)).sum)

/-- A concrete always-failing trial function for optimization witnesses. -/
def badTrial : List (String × ℚ) → Except SimError ℚ :=
  fun _ => .error SimError.strategyRuntime

/-- A concrete two-parameter grid for optimization witnesses. -/
def scnGrids : List (String × List ℚ) :=
  [("a", [1, 2, 3]), ("b", [10, 20])]

/- ------------------------------------------------------------------ -/
/- Part 7: lemmas on the symbol conversion                             -/
/- ------------------------------------------------------------------ -/

theorem replaceAll_nil (pat rep : List Char) : replaceAll pat rep [] = [] := by
  rw [replaceAll]

theorem replaceAll_cons (pat rep : List Char) (c : Char) (rest : List Char) :
    replaceAll pat rep (c :: rest) =
      if isPre pat (c :: rest) = true ∧ pat ≠ [] then
        rep ++ replaceAll pat rep (rest.drop (pat.length - 1))
      else
        c :: replaceAll pat rep rest := by
  rw [replaceAll]

theorem specSimulRepl_cons (c : Char) (rest : List Char) :
    specSimulRepl (c :: rest) =
      if isPre ['X', 'S', 'H', 'G'] (c :: rest) = true then
        'S' :: 'S' :: 'E' :: specSimulRepl (rest.drop 3)
      else if isPre ['X', 'S', 'H', 'E'] (c :: rest) = true then
        'S' :: 'Z' :: 'S' :: 'E' :: specSimulRepl (rest.drop 3)
      else
        c :: specSimulRepl rest := by
  rw [specSimulRepl]

theorem isPre_four_iff (a b c d : Char) (s : List Char) :
    isPre [a, b, c, d] s = true ↔ ∃ t, s = a :: b :: c :: d :: t := by
  match s with
  | [] => simp [isPre]
  | [x] => simp [isPre]
  | [x, y] => simp [isPre]
  | [x, y, z] => simp [isPre]
  | x :: y :: z :: w :: t =>
    simp only [isPre, Bool.and_eq_true, beq_iff_eq]
    constructor
    · rintro ⟨rfl, rfl, rfl, rfl, -⟩
      exact ⟨t, rfl⟩
    · rintro ⟨t', ht⟩
      injection ht with h1 ht; injection ht with h2 ht
      injection ht with h3 ht; injection ht with h4 ht
      subst h1; subst h2; subst h3; subst h4
      simp

theorem outer_skip_sse (t : List Char) :
    replaceAll ['X', 'S', 'H', 'E'] ['S', 'Z', 'S', 'E'] ('S' :: 'S' :: 'E' :: t) =
      'S' :: 'S' :: 'E' :: replaceAll ['X', 'S', 'H', 'E'] ['S', 'Z', 'S', 'E'] t := by
  have hx : ('X' == 'S') = false := by decide
  have hx2 : ('X' == 'E') = false := by decide
  rw [replaceAll_cons, if_neg, replaceAll_cons, if_neg, replaceAll_cons, if_neg]
  · rintro ⟨h, -⟩; simp [isPre, hx2] at h
  · rintro ⟨h, -⟩; simp [isPre, hx] at h
  · rintro ⟨h, -⟩; simp [isPre, hx] at h

theorem inner_keep_xshe (t : List Char) :
    replaceAll ['X', 'S', 'H', 'G'] ['S', 'S', 'E'] ('X' :: 'S' :: 'H' :: 'E' :: t) =
      'X' :: 'S' :: 'H' :: 'E' :: replaceAll ['X', 'S', 'H', 'G'] ['S', 'S', 'E'] t := by
  have h1 : ('G' == 'E') = false := by decide
  have h2 : ('X' == 'S') = false := by decide
  have h3 : ('X' == 'H') = false := by decide
  have h4 : ('X' == 'E') = false := by decide
  rw [replaceAll_cons, if_neg, replaceAll_cons, if_neg, replaceAll_cons, if_neg,
    replaceAll_cons, if_neg]
  · rintro ⟨h, -⟩; simp [isPre, h4] at h
  · rintro ⟨h, -⟩; simp [isPre, h3] at h
  · rintro ⟨h, -⟩; simp [isPre, h2] at h
  · rintro ⟨h, -⟩; simp [isPre, h1] at h
theorem pres_e (r : List Char) :
    isPre ['E'] (replaceAll ['X', 'S', 'H', 'G'] ['S', 'S', 'E'] r) = true →
      isPre ['E'] r = true := by
  match r with
  | [] =>
    rw [replaceAll_nil]
    intro h
    exact absurd h (by simp [isPre])
  | c :: rest =>
    rw [replaceAll_cons]
    by_cases hc : isPre ['X', 'S', 'H', 'G'] (c :: rest) = true ∧
        (['X', 'S', 'H', 'G'] : List Char) ≠ []
    · rw [if_pos hc]
      intro h
      simp [isPre, (show ('E' == 'S') = false by decide)] at h
    · rw [if_neg hc]
      intro h
      simp only [isPre, Bool.and_eq_true, beq_iff_eq] at h ⊢
      exact ⟨h.1, trivial⟩

theorem pres_he (r : List Char) :
    isPre ['H', 'E'] (replaceAll ['X', 'S', 'H', 'G'] ['S', 'S', 'E'] r) = true →
      isPre ['H', 'E'] r = true := by
  match r with
  | [] =>
    rw [replaceAll_nil]
    intro h
    exact absurd h (by simp [isPre])
  | c :: rest =>
    rw [replaceAll_cons]
    by_cases hc : isPre ['X', 'S', 'H', 'G'] (c :: rest) = true ∧
        (['X', 'S', 'H', 'G'] : List Char) ≠ []
    · rw [if_pos hc]
      intro h
      simp [isPre, (show ('H' == 'S') = false by decide)] at h
    · rw [if_neg hc]
      intro h
      simp only [isPre, Bool.and_eq_true, beq_iff_eq] at h ⊢
      refine ⟨h.1, ?_⟩
      have h2 : isPre ['E'] (replaceAll ['X', 'S', 'H', 'G'] ['S', 'S', 'E'] rest) = true := by
        simp [isPre, Bool.and_eq_true, beq_iff_eq, h.2]
      have h3 := pres_e rest h2
      simpa [isPre, Bool.and_eq_true, beq_iff_eq] using h3

theorem pres_she (r : List Char) :
    isPre ['S', 'H', 'E'] (replaceAll ['X', 'S', 'H', 'G'] ['S', 'S', 'E'] r) = true →
      isPre ['S', 'H', 'E'] r = true := by
  match r with
  | [] =>
    rw [replaceAll_nil]
    intro h
    exact absurd h (by simp [isPre])
  | c :: rest =>
    rw [replaceAll_cons]
    by_cases hc : isPre ['X', 'S', 'H', 'G'] (c :: rest) = true ∧
        (['X', 'S', 'H', 'G'] : List Char) ≠ []
    · rw [if_pos hc]
      intro h
      simp [isPre, (show ('H' == 'S') = false by decide)] at h
    · rw [if_neg hc]
      intro h
      simp only [isPre, Bool.and_eq_true, beq_iff_eq] at h ⊢
      refine ⟨h.1, ?_⟩
      have h3 := pres_he rest h.2
      simpa [isPre, Bool.and_eq_true, beq_iff_eq] using h3

theorem not_pre_outer (c : Char) (rest : List Char)
    (h : ¬ isPre ['X', 'S', 'H', 'E'] (c :: rest) = true) :
    ¬ isPre ['X', 'S', 'H', 'E']
        (c :: replaceAll ['X', 'S', 'H', 'G'] ['S', 'S', 'E'] rest) = true := by
  intro h'
  simp only [isPre, Bool.and_eq_true, beq_iff_eq] at h'
  apply h
  simp only [isPre, Bool.and_eq_true, beq_iff_eq]
  refine ⟨h'.1, ?_⟩
  have h3 := pres_she rest h'.2
  simpa [isPre, Bool.and_eq_true, beq_iff_eq] using h3

theorem rqToVt_eq_simul_aux :
    ∀ (n : Nat) (s : List Char), s.length ≤ n → rqToVt s = specSimulRepl s := by
  intro n
  induction n with
  | zero =>
    intro s hs
    have hnil : s = [] := List.eq_nil_of_length_eq_zero (Nat.le_zero.mp hs)
    subst hnil
    unfold rqToVt
    rw [replaceAll_nil, replaceAll_nil, specSimulRepl]
  | succ n ih =>
    intro s hs
    by_cases hG : isPre ['X', 'S', 'H', 'G'] s = true
    · obtain ⟨t, rfl⟩ := (isPre_four_iff _ _ _ _ s).mp hG
      have ht : t.length ≤ n := by
        simp only [List.length_cons] at hs
        omega
      unfold rqToVt
      rw [replaceAll_cons, if_pos ⟨hG, by simp⟩]
      simp only [List.length_cons, List.drop_succ_cons, List.drop_zero, List.length_nil,
        List.cons_append, List.nil_append]
      have hdrop : (('S' : Char) :: 'H' :: 'G' :: t).drop (4 - 1) = t := by simp
      rw [hdrop] at *
      rw [outer_skip_sse]
      have ihx := ih t ht
      unfold rqToVt at ihx
      rw [ihx]
      rw [specSimulRepl_cons, if_pos hG]
      simp
    · by_cases hE : isPre ['X', 'S', 'H', 'E'] s = true
      · obtain ⟨t, rfl⟩ := (isPre_four_iff _ _ _ _ s).mp hE
        have ht : t.length ≤ n := by
          simp only [List.length_cons] at hs
          omega
        unfold rqToVt
        rw [inner_keep_xshe]
        rw [replaceAll_cons, if_pos ⟨by simp [isPre], by simp⟩]
        have hdrop :
            List.drop ((['X', 'S', 'H', 'E'] : List Char).length - 1)
              (('S' : Char) :: 'H' :: 'E' :: replaceAll ['X', 'S', 'H', 'G'] ['S', 'S', 'E'] t) =
              replaceAll ['X', 'S', 'H', 'G'] ['S', 'S', 'E'] t := rfl
        rw [hdrop]
        simp only [List.cons_append, List.nil_append]
        have ihx := ih t ht
        unfold rqToVt at ihx
        rw [ihx]
        rw [specSimulRepl_cons, if_neg, if_pos hE]
        · simp
        · simp [isPre, (show ('G' == 'E') = false by decide)]
      · match s with
        | [] =>
          unfold rqToVt
          rw [replaceAll_nil, replaceAll_nil, specSimulRepl]
        | c :: rest =>
          have hrest : rest.length ≤ n := by
            simp only [List.length_cons] at hs
            omega
          unfold rqToVt
          rw [replaceAll_cons, if_neg (fun hco => hG hco.1)]
          rw [replaceAll_cons, if_neg (fun hco => not_pre_outer c rest hE hco.1)]
          have ihx := ih rest hrest
          unfold rqToVt at ihx
          rw [ihx]
          rw [specSimulRepl_cons, if_neg hG, if_neg hE]

theorem rqToVt_eq_simul (s : List Char) : rqToVt s = specSimulRepl s :=
  rqToVt_eq_simul_aux s.length s le_rfl

theorem replaceAll_id_of_not_contains (pat rep : List Char) :
    ∀ s : List Char, containsSub pat s = false → replaceAll pat rep s = s := by
  intro s
  induction s with
  | nil => intro h; exact replaceAll_nil pat rep
  | cons c rest ih =>
    intro h
    simp only [containsSub, Bool.or_eq_false_iff] at h
    rw [replaceAll_cons, if_neg (fun hco => by rw [h.1] at hco; exact absurd hco.1 (by simp))]
    rw [ih h.2]

theorem foldl_append_map {α β : Type} (f : α → β) (l : List α) (acc : List β) :
    l.foldl (fun a x => a ++ [f x]) acc = acc ++ l.map f := by
  induction l generalizing acc with
  | nil => simp
  | cons x xs ih => simp [List.foldl_cons, ih]

/-- Claim C10: for every list of data-provider symbol strings, the
symbol-conversion loop of `download_data_rq.ipynb` returns a list of the same
length and order in which each element equals the input element with every
occurrence of `XSHG` replaced by `SSE` and every occurrence of `XSHE` replaced
by `SZSE` (the simultaneous reading `specSimulRepl`); an input symbol
containing neither substring is returned unchanged. -/
theorem symbol_conversion_correct (l : List (List Char)) :
    convertSymbols l = l.map specSimulRepl ∧
    (convertSymbols l).length = l.length ∧
    ∀ s : List Char, containsSub ['X', 'S', 'H', 'G'] s = false →
      containsSub ['X', 'S', 'H', 'E'] s = false → rqToVt s = s := by
  have hmap : convertSymbols l = l.map rqToVt := by
    unfold convertSymbols
    exact foldl_append_map rqToVt l []
  have hfun : rqToVt = specSimulRepl := funext rqToVt_eq_simul
  refine ⟨by rw [hmap, hfun], by rw [hmap]; simp, ?_⟩
  intro s hg he
  unfold rqToVt
  rw [replaceAll_id_of_not_contains _ _ s hg, replaceAll_id_of_not_contains _ _ s he]

/-- Witness for claim C10: the conversion evaluated on the concrete symbols
`600000.XSHG`, `000001.XSHE` and the unchanged symbol `IF888.CFFEX`. -/
theorem symbol_conversion_correct_witness :
    convertSymbols
        [ ['6', '0', '0', '0', '0', '0', '.', 'X', 'S', 'H', 'G']
        , ['0', '0', '0', '0', '0', '1', '.', 'X', 'S', 'H', 'E'] ] =
      [ ['6', '0', '0', '0', '0', '0', '.', 'S', 'S', 'E']
      , ['0', '0', '0', '0', '0', '1', '.', 'S', 'Z', 'S', 'E'] ] ∧
    rqToVt ['I', 'F', '8', '8', '8', '.', 'C', 'F', 'F', 'E', 'X'] =
      ['I', 'F', '8', '8', '8', '.', 'C', 'F', 'F', 'E', 'X'] := by
  constructor
  · rw [(symbol_conversion_correct
      [ ['6', '0', '0', '0', '0', '0', '.', 'X', 'S', 'H', 'G']
      , ['0', '0', '0', '0', '0', '1', '.', 'X', 'S', 'H', 'E'] ]).1]
    simp +decide [specSimulRepl]
  · exact (symbol_conversion_correct []).2.2
      ['I', 'F', '8', '8', '8', '.', 'C', 'F', 'F', 'E', 'X']
      (by decide) (by decide)

/- ------------------------------------------------------------------ -/
/- Part 8: optimization-engine lemmas (claims C7, C8)                  -/
/- ------------------------------------------------------------------ -/

theorem cartesian_length (grids : List (String × List ℚ)) :
    (cartesian grids).length = (grids.map (fun g => g.2.length)).prod := by
  induction grids with
  | nil => simp [cartesian]
  | cons g rest ih =>
    obtain ⟨n, vs⟩ := g
    simp only [cartesian, List.length_flatMap, List.map_map, Function.comp_def,
      List.length_map, List.map_cons, List.prod_cons]
    rw [List.map_const', List.sum_replicate, smul_eq_mul, ih]

theorem runTrialSafe_params (f : List (String × ℚ) → Except SimError ℚ)
    (p : List (String × ℚ)) : (runTrialSafe f p).params = p := by
  unfold runTrialSafe
  cases f p <;> rfl

/-- Claim C7: brute-force optimization over a parameter schema whose cartesian
product of grids has N combinations returns exactly N results, one per
combination in product order, each tagged with its originating ParameterSet
and carrying a status of success (`ok`) or `failed`. -/
theorem brute_force_grid_complete (f : List (String × ℚ) → Except SimError ℚ)
    (grids : List (String × List ℚ)) :
    (bruteForce f grids).length = (grids.map (fun g => g.2.length)).prod ∧
    (bruteForce f grids).map (fun r => r.params) = cartesian grids ∧
    ∀ r ∈ bruteForce f grids, r.status = OptStatus.ok ∨ r.status = OptStatus.failed := by
  refine ⟨?_, ?_, ?_⟩
  · unfold bruteForce
    rw [List.length_map]
    exact cartesian_length grids
  · unfold bruteForce
    rw [List.map_map]
    have hcomp : ((fun r => OptResult.params r) ∘ runTrialSafe f) = id :=
      funext fun p => runTrialSafe_params f p
    rw [hcomp, List.map_id]
  · intro r _
    cases hstat : r.status
    · exact Or.inl rfl
    · exact Or.inr rfl

/-- Witness for claim C7: the 3x2 grid `scnGrids` yields exactly 6 results and
the result of an arbitrary member combination carries an ok/failed status. -/
theorem brute_force_grid_complete_witness :
    (bruteForce okTrial scnGrids).length = 6 ∧
    ((⟨[("a", 1), ("b", 10)], some 11, OptStatus.ok⟩ : OptResult).status = OptStatus.ok ∨
      (⟨[("a", 1), ("b", 10)], some 11, OptStatus.ok⟩ : OptResult).status = OptStatus.failed) := by
  constructor
  · exact ((brute_force_grid_complete okTrial scnGrids).1).trans (by decide)
  · exact (brute_force_grid_complete okTrial scnGrids).2.2
      ⟨[("a", 1), ("b", 10)], some 11, OptStatus.ok⟩
      (by simp [bruteForce, cartesian, scnGrids, runTrialSafe, okTrial]; norm_num)

/-- Claim C8: a failure raised inside a trial of an optimization batch never
aborts the batch — the batch (genetic evaluation phase or brute-force sweep)
still returns one result per trial, the failing trial is converted at the
trial boundary into status `failed`, and its fitness is the worst possible
value both for the ranking order and for tournament selection pressure. -/
theorem failed_trial_isolation (f : List (String × ℚ) → Except SimError ℚ)
    (pop : List (List (String × ℚ))) (grids : List (String × List ℚ)) :
    (gaEvaluate f pop).length = pop.length ∧
    (bruteForce f grids).length = (cartesian grids).length ∧
    (∀ p e, f p = .error e →
      runTrialSafe f p = { params := p, fitness := none, status := .failed }) ∧
    (∀ r ∈ gaEvaluate f pop, r.status = OptStatus.failed → r.fitness = none) ∧
    (∀ x : Option ℚ, fitnessLe none x) ∧
    (∀ a b : OptResult, a.fitness = none → (∃ m, b.fitness = some m) →
      tournamentPick a b = b ∧ tournamentPick b a = b) := by
  refine ⟨?_, ?_, ?_, ?_, ?_, ?_⟩
  · unfold gaEvaluate
    rw [List.length_map]
  · unfold bruteForce
    rw [List.length_map]
  · intro p e h
    unfold runTrialSafe
    rw [h]
  · intro r hr hfail
    unfold gaEvaluate at hr
    obtain ⟨p, -, rfl⟩ := List.mem_map.mp hr
    unfold runTrialSafe at hfail ⊢
    cases hf : f p with
    | ok m => simp [hf] at hfail
    | error e => simp [hf]
  · intro x
    cases x
    · exact trivial
    · exact trivial
  · intro a b ha hb
    obtain ⟨m, hm⟩ := hb
    unfold tournamentPick
    rw [ha, hm]
    constructor
    · rw [if_pos]
      rfl
    · rw [if_neg]
      intro hcontra
      exact absurd hcontra (by simp [fitnessLt])

/-- Witness for claim C8: a concrete failing trial inside a concrete batch. -/
theorem failed_trial_isolation_witness :
    (gaEvaluate badTrial [[("a", 1)], [("a", 2)]]).length = 2 ∧
    runTrialSafe badTrial [("a", 1)] =
      { params := [("a", 1)], fitness := none, status := .failed } ∧
    fitnessLe none (some 5) ∧
    tournamentPick ⟨[("a", 1)], none, .failed⟩ ⟨[("a", 2)], some 5, .ok⟩ =
      ⟨[("a", 2)], some 5, .ok⟩ := by
  have h := failed_trial_isolation badTrial [[("a", 1)], [("a", 2)]] scnGrids
  refine ⟨h.1, h.2.2.1 [("a", 1)] SimError.strategyRuntime rfl, h.2.2.2.2.1 (some 5), ?_⟩
  exact (h.2.2.2.2.2 ⟨[("a", 1)], none, .failed⟩ ⟨[("a", 2)], some 5, .ok⟩ rfl ⟨5, rfl⟩).1

/- ------------------------------------------------------------------ -/
/- Part 9: statistics lemmas (claim C9)                                -/
/- ------------------------------------------------------------------ -/

theorem meanQ_nil : meanQ [] = 0 := by
  simp [meanQ]

theorem varQ_nil : varQ [] = 0 := by
  simp [varQ]

theorem stddevR_nil : stddevR [] = 0 := by
  simp [stddevR, varQ_nil, Real.sqrt_zero]

theorem sharpeR_of_stddev_zero (l : List ℚ) (h : stddevR l = 0) : sharpeR l = 0 := by
  unfold sharpeR
  rw [if_pos h]

theorem sum_eq_zero_of_all_zero (l : List ℚ) (h : ∀ x ∈ l, x = 0) : l.sum = 0 :=
  List.sum_eq_zero h

theorem meanQ_of_all_zero (l : List ℚ) (h : ∀ x ∈ l, x = 0) : meanQ l = 0 := by
  unfold meanQ
  rw [List.sum_eq_zero h, zero_div]

theorem varQ_of_all_zero (l : List ℚ) (h : ∀ x ∈ l, x = 0) : varQ l = 0 := by
  unfold varQ
  rw [List.sum_eq_zero, zero_div]
  intro y hy
  obtain ⟨x, hx, rfl⟩ := List.mem_map.mp hy
  rw [h x hx, meanQ_of_all_zero l h]
  ring

theorem stddevR_of_all_zero (l : List ℚ) (h : ∀ x ∈ l, x = 0) : stddevR l = 0 := by
  unfold stddevR
  rw [varQ_of_all_zero l h]
  simp [Real.sqrt_zero]

theorem ddfold_all_zero (l : List ℚ) (h : ∀ x ∈ l, x = 0) :
    l.foldl ddStep (0, 0, 0) = (0, 0, 0) := by
  induction l with
  | nil => rfl
  | cons x xs ih =>
    have hx : x = 0 := h x (List.mem_cons_self x xs)
    have hstep : ddStep (0, 0, 0) x = (0, 0, 0) := by
      subst hx
      simp [ddStep]
    rw [List.foldl_cons, hstep]
    exact ih (fun y hy => h y (List.mem_cons_of_mem x hy))

theorem maxDrawdownQ_of_all_zero (l : List ℚ) (h : ∀ x ∈ l, x = 0) :
    maxDrawdownQ l = 0 := by
  unfold maxDrawdownQ
  rw [ddfold_all_zero l h]

/-- Claim C9: the Statistics Calculator is a total function on DailyResult
sequences — on the empty sequence it returns the defined zero/neutral result,
on an all-zero sequence every reported metric is the neutral value, and
whenever the standard deviation of daily returns is 0 the Sharpe ratio it
returns is 0. -/
theorem statistics_total_neutral :
    calcStatistics [] = emptyStats ∧
    (∀ ds : List DailyResult, stddevR (dailyPnls ds) = 0 →
      (calcStatistics ds).sharpe_ratio = 0) ∧
    (∀ ds : List DailyResult, (∀ d ∈ ds, d.net_pnl = 0) →
      (calcStatistics ds).total_net_pnl = 0 ∧
      (calcStatistics ds).max_drawdown = 0 ∧
      (calcStatistics ds).win_rate = 0 ∧
      (calcStatistics ds).sharpe_ratio = 0) := by
  refine ⟨?_, ?_, ?_⟩
  · have h1 : maxDrawdownQ [] = 0 := rfl
    have h3 : sharpeR [] = 0 := sharpeR_of_stddev_zero [] stddevR_nil
    unfold calcStatistics emptyStats
    simp [dailyPnls, h1, meanQ_nil, h3]
  · intro ds h
    unfold calcStatistics
    exact sharpeR_of_stddev_zero (dailyPnls ds) h
  · intro ds h
    have hz : ∀ x ∈ dailyPnls ds, x = 0 := by
      intro x hx
      obtain ⟨d, hd, rfl⟩ := List.mem_map.mp hx
      exact h d hd
    unfold calcStatistics
    refine ⟨List.sum_eq_zero hz, maxDrawdownQ_of_all_zero _ hz, ?_, ?_⟩
    · have hfil : (dailyPnls ds).filter (fun x => decide (0 < x)) = [] := by
        rw [List.filter_eq_nil_iff]
        intro x hx
        rw [hz x hx]
        simp
      simp only [hfil, List.length_nil, Nat.cast_zero, zero_div]
    · exact sharpeR_of_stddev_zero _ (stddevR_of_all_zero _ hz)

/-- Witness for claim C9: the calculator at the empty sequence and at a
one-day all-zero sequence. -/
theorem statistics_total_neutral_witness :
    (calcStatistics []).sharpe_ratio = 0 ∧
    (calcStatistics [⟨1, 10, 0, 0, 0, 0, 0⟩]).sharpe_ratio = 0 := by
  constructor
  · exact (statistics_total_neutral.2.1 [] (by rw [dailyPnls, List.map_nil, stddevR_nil]))
  · exact (statistics_total_neutral.2.2 [⟨1, 10, 0, 0, 0, 0, 0⟩]
      (by intro d hd; simp at hd; rw [hd])).2.2.2

/- ------------------------------------------------------------------ -/
/- Part 10: generic fold preservation helpers                          -/
/- ------------------------------------------------------------------ -/

theorem foldl_proj_const {α β γ : Type _} (f : β → α → β) (g : β → γ)
    (hf : ∀ b a, g (f b a) = g b) :
    ∀ (l : List α) (b : β), g (l.foldl f b) = g b := by
  intro l
  induction l with
  | nil => intro b; rfl
  | cons a as ih =>
    intro b
    rw [List.foldl_cons, ih, hf]

theorem foldl_pres {α β : Type _} (f : β → α → β) (P : β → Prop)
    (hf : ∀ b a, P b → P (f b a)) :
    ∀ (l : List α) (b : β), P b → P (l.foldl f b) := by
  intro l
  induction l with
  | nil => intro b hb; exact hb
  | cons a as ih =>
    intro b hb
    rw [List.foldl_cons]
    exact ih (f b a) (hf b a hb)

/- ------------------------------------------------------------------ -/
/- Part 11: the accounting identity (claim C1)                         -/
/- ------------------------------------------------------------------ -/

theorem crossOne_capital_daily (cfg : EngineConfig) (bar : PriceBar)
    (st : EngineState) (i : Nat) :
    (crossOne cfg bar st i).capital = st.capital ∧
    (crossOne cfg bar st i).daily = st.daily := by
  unfold crossOne
  repeat' split
  all_goals exact ⟨rfl, rfl⟩

theorem submitOrder_capital_daily (st : EngineState) (r : OrderReq) :
    (submitOrder st r).capital = st.capital ∧ (submitOrder st r).daily = st.daily := by
  unfold submitOrder
  by_cases h : 0 < r.volume ∧ (r.kind = OrderKind.market ∨ 0 < r.price)
  · rw [if_pos h]
    exact ⟨rfl, rfl⟩
  · rw [if_neg h]
    exact ⟨rfl, rfl⟩

theorem expirePending_capital_daily (cfg : EngineConfig) (st : EngineState) :
    (expirePending cfg st).capital = st.capital ∧
    (expirePending cfg st).daily = st.daily := by
  unfold expirePending
  by_cases h : cfg.expireSameBar = true
  · rw [if_pos h]
    exact ⟨rfl, rfl⟩
  · rw [if_neg h]
    exact ⟨rfl, rfl⟩

theorem markDay_cap_sum (bar : PriceBar) (st : EngineState) :
    (markDay bar st).capital -
      (((markDay bar st).daily.map (fun d => d.net_pnl)).sum) =
    st.capital - ((st.daily.map (fun d => d.net_pnl)).sum) := by
  unfold markDay
  simp only [List.map_append, List.sum_append, List.map_cons, List.map_nil,
    List.sum_cons, List.sum_nil]
  ring

theorem stepBar_cap_sum (cfg : EngineConfig) (bar : PriceBar) (reqs : List OrderReq)
    (st : EngineState) :
    (stepBar cfg bar reqs st).capital -
      (((stepBar cfg bar reqs st).daily.map (fun d => d.net_pnl)).sum) =
    st.capital - ((st.daily.map (fun d => d.net_pnl)).sum) := by
  unfold stepBar
  rw [markDay_cap_sum]
  have hsub := foldl_proj_const submitOrder
    (fun s => (s.capital, s.daily))
    (fun b a => by
      have h := submitOrder_capital_daily b a
      exact Prod.ext h.1 h.2)
    reqs (expirePending cfg (crossPending cfg bar st))
  have hsub1 : (reqs.foldl submitOrder (expirePending cfg (crossPending cfg bar st))).capital
      = (expirePending cfg (crossPending cfg bar st)).capital := congrArg Prod.fst hsub
  have hsub2 : (reqs.foldl submitOrder (expirePending cfg (crossPending cfg bar st))).daily
      = (expirePending cfg (crossPending cfg bar st)).daily := congrArg Prod.snd hsub
  rw [hsub1, hsub2]
  rw [(expirePending_capital_daily cfg _).1, (expirePending_capital_daily cfg _).2]
  unfold crossPending
  have hcr := foldl_proj_const (crossOne cfg bar)
    (fun s => (s.capital, s.daily))
    (fun b a => by
      have h := crossOne_capital_daily cfg bar b a
      exact Prod.ext h.1 h.2)
    st.pending { st with pending := [] }
  have hcr1 := congrArg Prod.fst hcr
  have hcr2 := congrArg Prod.snd hcr
  simp only at hcr1 hcr2
  rw [hcr1, hcr2]

/-- Claim C1: for every replayed run and at every prefix of the replayed bar
series, the starting capital plus the sum of `net_pnl` over the DailyResults
emitted so far equals the ledger's capital at that point. -/
theorem capital_prefix_invariant {σ : Type} (cfg : EngineConfig) (strat : Strategy σ)
    (capital : ℚ) (bars : List PriceBar) (k : Nat) :
    (runTrial cfg strat capital (bars.take k)).capital =
      capital +
        ((runTrial cfg strat capital (bars.take k)).daily.map
          (fun d => d.net_pnl)).sum := by
  unfold runTrial runBars
  have hrun := foldl_proj_const (stepPair cfg strat)
    (fun p : σ × EngineState =>
      p.2.capital - ((p.2.daily.map (fun d => d.net_pnl)).sum))
    (fun b a => stepBar_cap_sum cfg a (strat.onBar b.1 a).2 b.2)
    (bars.take k) (startPair strat capital)
  have hstart : (startPair strat capital).2.capital -
      (((startPair strat capital).2.daily.map (fun d => d.net_pnl)).sum) = capital := by
    have hsub := foldl_proj_const submitOrder
      (fun s => (s.capital, s.daily))
      (fun b a => by
        have h := submitOrder_capital_daily b a
        exact Prod.ext h.1 h.2)
      (strat.onStart strat.init).2 (initState capital)
    have h1 := congrArg Prod.fst hsub
    have h2 := congrArg Prod.snd hsub
    simp only at h1 h2
    simp only [startPair]
    rw [h1, h2]
    simp [initState]
  rw [hstart] at hrun
  linarith [hrun]

/- ------------------------------------------------------------------ -/
/- Part 12: limit matching (claim C3)                                  -/
/- ------------------------------------------------------------------ -/

/-- Claim C3: a pending limit buy order fills, fully and at its limit price,
exactly when `bar.low ≤ order.price`; a limit sell exactly when
`bar.high ≥ order.price`; the fill is always for the order's whole volume; and
in the spec's 3-bar scenario the limit buy at 100 for volume 1 fills on day 1
at price 100, giving net_volume 1, average_cost 100, day-1
unrealized_pnl_delta 4 and cumulative unrealized PnL 7 by day 3. -/
theorem limit_fill_rule :
    (∀ (cfg : EngineConfig) (bar : PriceBar) (o : Order),
      o.kind = OrderKind.limit → o.direction = Direction.buy →
      fillPriceOpt cfg bar o = if bar.low ≤ o.price then some o.price else none) ∧
    (∀ (cfg : EngineConfig) (bar : PriceBar) (o : Order),
      o.kind = OrderKind.limit → o.direction = Direction.sell →
      fillPriceOpt cfg bar o = if o.price ≤ bar.high then some o.price else none) ∧
    (∀ (cfg : EngineConfig) (bar : PriceBar) (st : EngineState) (i : Nat) (o : Order)
      (p : ℚ), st.orders i = some o → o.status = OrderStatus.submitted →
      fillPriceOpt cfg bar o = some p →
      (crossOne cfg bar st i).trades = st.trades ++
        [{ order_id := i, fill_price := p, fill_volume := o.volume,
           timestamp := bar.date, commission := commissionFor cfg o p }]) ∧
    (scnRun.orders 0 =
      some { id := 0, direction := .buy, intent := .openPos, kind := .limit,
             price := 100, volume := 1, status := .filled } ∧
    scnRun.trades =
      [{ order_id := 0, fill_price := 100, fill_volume := 1, timestamp := 1,
         commission := 0 }] ∧
    scnRun.pos.net_volume = 1 ∧
    scnRun.pos.average_cost = 100 ∧
    scnRun.daily.map (fun d => d.unrealized_pnl_delta) = [4, -1, 4] ∧
    (scnRun.daily.map (fun d => d.unrealized_pnl_delta)).sum = 7) := by
  refine ⟨?_, ?_, ?_, ?_⟩
  · intro cfg bar o hk hd
    simp [fillPriceOpt, hk, hd]
  · intro cfg bar o hk hd
    simp [fillPriceOpt, hk, hd]
  · intro cfg bar st i o p hord hsub hfill
    simp [crossOne, hord, hsub, hfill]
  · norm_num [scnRun, runTrial, runBars, startPair, stepPair, stepBar, markDay, crossPending,
      crossOne, expirePending, submitOrder, initState, scnStrategy, scnCfg, scnBars,
      fillPriceOpt, applyTrade, commissionFor, updateOrd, snapToTick]

/-- Witness for claim C3: the fill rule evaluated at the day-1 bar of the
scenario, for a limit buy at 100 (fills at 100) and a limit sell at 200
(no fill, since the high 105 is below 200). -/
theorem limit_fill_rule_witness :
    fillPriceOpt scnCfg { date := 1, open_ := 100, high := 105, low := 99, close := 104, volume := 1 }
      { id := 0, direction := .buy, intent := .openPos, kind := .limit,
        price := 100, volume := 1, status := .submitted } = some 100 ∧
    fillPriceOpt scnCfg { date := 1, open_ := 100, high := 105, low := 99, close := 104, volume := 1 }
      { id := 1, direction := .sell, intent := .closePos, kind := .limit,
        price := 200, volume := 1, status := .submitted } = none := by
  constructor
  · rw [limit_fill_rule.1 scnCfg
      { date := 1, open_ := 100, high := 105, low := 99, close := 104, volume := 1 }
      { id := 0, direction := .buy, intent := .openPos, kind := .limit,
        price := 100, volume := 1, status := .submitted } rfl rfl]
    norm_num
  · rw [limit_fill_rule.2.1 scnCfg
      { date := 1, open_ := 100, high := 105, low := 99, close := 104, volume := 1 }
      { id := 1, direction := .sell, intent := .closePos, kind := .limit,
        price := 200, volume := 1, status := .submitted } rfl rfl]
    norm_num

/- ------------------------------------------------------------------ -/
/- Part 13: submission-time validation (claim C6)                      -/
/- ------------------------------------------------------------------ -/

theorem crossOne_orders_cases (cfg : EngineConfig) (bar : PriceBar)
    (b : EngineState) (j : Nat) :
    (crossOne cfg bar b j).orders = b.orders ∨
    ∃ o p, b.orders j = some o ∧ o.status = OrderStatus.submitted ∧
      fillPriceOpt cfg bar o = some p ∧
      (crossOne cfg bar b j).orders =
        updateOrd b.orders j { o with status := OrderStatus.filled } := by
  unfold crossOne
  cases h : b.orders j with
  | none => left; rfl
  | some o =>
    by_cases hs : o.status = OrderStatus.submitted
    · cases hf : fillPriceOpt cfg bar o with
      | none => left; simp [hs, hf]
      | some p =>
        right
        exact ⟨o, p, rfl, hs, hf, by simp [hs, hf]⟩
    · left; simp [hs]

theorem crossOne_errors (cfg : EngineConfig) (bar : PriceBar)
    (b : EngineState) (j : Nat) :
    (crossOne cfg bar b j).errors = b.errors := by
  unfold crossOne
  repeat' split
  all_goals rfl

theorem crossPending_no_reject (cfg : EngineConfig) (bar : PriceBar) (st : EngineState) :
    ∀ (i : Nat) (o' : Order), (crossPending cfg bar st).orders i = some o' →
      o'.status = OrderStatus.rejected →
      ∃ o, st.orders i = some o ∧ o.status = OrderStatus.rejected := by
  unfold crossPending
  refine foldl_pres (crossOne cfg bar)
    (fun b => ∀ (i : Nat) (o' : Order), b.orders i = some o' →
      o'.status = OrderStatus.rejected →
      ∃ o, st.orders i = some o ∧ o.status = OrderStatus.rejected)
    ?_ st.pending { st with pending := [] } ?_
  · intro b j hb i o' ho' hrej
    rcases crossOne_orders_cases cfg bar b j with he | ⟨o, p, hbo, hsub, hfp, he⟩
    · rw [he] at ho'
      exact hb i o' ho' hrej
    · rw [he] at ho'
      unfold updateOrd at ho'
      by_cases hij : i = j
      · rw [if_pos hij] at ho'
        injection ho' with ho'
        rw [← ho'] at hrej
        exact absurd hrej (by simp)
      · rw [if_neg hij] at ho'
        exact hb i o' ho' hrej
  · intro i o' ho' hrej
    exact ⟨o', ho', hrej⟩

/-- Claim C6: a submission with volume ≤ 0, or price ≤ 0 for a priced kind,
raises `InvalidOrderError` at submission time — the order is recorded as
Rejected, the rest of the trial state is untouched and the run continues —
and the matching phase never raises it: crossing a bar emits no error and
never turns any order's status into Rejected. -/
theorem invalid_order_rejected_at_submit :
    (∀ (st : EngineState) (r : OrderReq),
      (r.volume ≤ 0 ∨ (r.kind ≠ OrderKind.market ∧ r.price ≤ 0)) →
      (submitOrder st r).errors = st.errors ++ [SimError.invalidOrder] ∧
      (submitOrder st r).orders st.nextId =
        some { id := st.nextId, direction := r.direction, intent := r.intent,
               kind := r.kind, price := r.price, volume := r.volume,
               status := OrderStatus.rejected } ∧
      (submitOrder st r).pending = st.pending ∧
      (submitOrder st r).trades = st.trades ∧
      (submitOrder st r).pos = st.pos ∧
      (submitOrder st r).capital = st.capital ∧
      (submitOrder st r).daily = st.daily ∧
      (∀ j, j ≠ st.nextId → (submitOrder st r).orders j = st.orders j) ∧
      (submitOrder st r).nextId = st.nextId + 1) ∧
    (∀ (cfg : EngineConfig) (bar : PriceBar) (st : EngineState),
      (crossPending cfg bar st).errors = st.errors ∧
      ∀ (i : Nat) (o' : Order), (crossPending cfg bar st).orders i = some o' →
        o'.status = OrderStatus.rejected →
        ∃ o, st.orders i = some o ∧ o.status = OrderStatus.rejected) := by
  constructor
  · intro st r hinv
    have hneg : ¬ (0 < r.volume ∧ (r.kind = OrderKind.market ∨ 0 < r.price)) := by
      rintro ⟨hv, hkp⟩
      rcases hinv with h | ⟨hk, hp⟩
      · linarith
      · rcases hkp with hk2 | hp2
        · exact hk hk2
        · linarith
    unfold submitOrder
    rw [if_neg hneg]
    refine ⟨rfl, ?_, rfl, rfl, rfl, rfl, rfl, ?_, rfl⟩
    · simp [updateOrd]
    · intro j hj
      simp [updateOrd, hj]
  · intro cfg bar st
    constructor
    · unfold crossPending
      exact foldl_proj_const (crossOne cfg bar) (fun b => b.errors)
        (fun b a => crossOne_errors cfg bar b a) st.pending { st with pending := [] }
    · exact crossPending_no_reject cfg bar st

/-- Witness for claim C6: submitting a limit buy with volume -1 into the fresh
state is rejected with an `InvalidOrderError` and changes nothing else. -/
theorem invalid_order_rejected_at_submit_witness :
    (submitOrder (initState 1000)
      { direction := .buy, intent := .openPos, kind := .limit,
        price := 100, volume := -1 }).errors = [SimError.invalidOrder] ∧
    (submitOrder (initState 1000)
      { direction := .buy, intent := .openPos, kind := .limit,
        price := 100, volume := -1 }).orders 0 =
      some { id := 0, direction := .buy, intent := .openPos, kind := .limit,
             price := 100, volume := -1, status := OrderStatus.rejected } ∧
    (submitOrder (initState 1000)
      { direction := .buy, intent := .openPos, kind := .limit,
        price := 100, volume := -1 }).capital = 1000 := by
  have h := invalid_order_rejected_at_submit.1 (initState 1000)
    { direction := .buy, intent := .openPos, kind := .limit, price := 100, volume := -1 }
    (Or.inl (by norm_num))
  refine ⟨?_, ?_, ?_⟩
  · rw [h.1]
    rfl
  · have h2 := h.2.1
    simpa [initState] using h2
  · rw [h.2.2.2.2.2.1]
    rfl

/- ------------------------------------------------------------------ -/
/- Part 14: determinism of a trial (claim C2)                          -/
/- ------------------------------------------------------------------ -/

theorem trialStep_deterministic {σ : Type} (cfg : EngineConfig) (strat : Strategy σ)
    (c c1 c2 : List PriceBar × σ × EngineState)
    (h1 : TrialStep cfg strat c c1) (h2 : TrialStep cfg strat c c2) : c1 = c2 := by
  cases h1
  cases h2
  rfl

theorem reflTransGen_nf_unique {α : Type _} (R : α → α → Prop)
    (hdet : ∀ a b c, R a b → R a c → b = c) {a b : α}
    (hab : Relation.ReflTransGen R a b) (hb : ∀ x, ¬ R b x) :
    ∀ c, Relation.ReflTransGen R a c → (∀ x, ¬ R c x) → b = c := by
  induction hab using Relation.ReflTransGen.head_induction_on with
  | refl =>
    intro c hac hc
    rcases Relation.ReflTransGen.cases_head hac with h | ⟨d, had, hdc⟩
    · exact h
    · exact absurd had (hb d)
  | head hstep htail ih =>
    intro c hac hc
    rcases Relation.ReflTransGen.cases_head hac with h | ⟨d, had, hdc⟩
    · subst h
      exact absurd hstep (hc _)
    · have hd := hdet _ _ _ hstep had
      subst hd
      exact ih c hdc hc

theorem run_adequacy {σ : Type} (cfg : EngineConfig) (strat : Strategy σ) :
    ∀ (bars : List PriceBar) (p : σ × EngineState),
      Relation.ReflTransGen (TrialStep cfg strat) (bars, p)
        ([], runBars cfg strat bars p) := by
  intro bars
  induction bars with
  | nil =>
    intro p
    exact Relation.ReflTransGen.refl
  | cons b bs ih =>
    intro p
    have hstep : TrialStep cfg strat (b :: bs, p) (bs, stepPair cfg strat p b) :=
      TrialStep.bar b bs p.1 p.2
    exact Relation.ReflTransGen.head hstep (ih (stepPair cfg strat p b))

theorem runTrial_runsTo {σ : Type} (cfg : EngineConfig) (strat : Strategy σ)
    (capital : ℚ) (bars : List PriceBar) :
    RunsTo cfg strat capital bars (runTrial cfg strat capital bars) :=
  ⟨(runBars cfg strat bars (startPair strat capital)).1,
    run_adequacy cfg strat bars (startPair strat capital)⟩

/-- Claim C2: the trial is deterministic — any two complete runs of the
transition system from identical bar data, identical configuration/parameters
and identical strategy logic end in the same state, so they produce identical
trade logs and identical statistics. -/
theorem trial_run_deterministic {σ : Type} (cfg : EngineConfig) (strat : Strategy σ)
    (capital : ℚ) (bars : List PriceBar) (st1 st2 : EngineState)
    (h1 : RunsTo cfg strat capital bars st1)
    (h2 : RunsTo cfg strat capital bars st2) :
    st1.trades = st2.trades ∧ calcStatistics st1.daily = calcStatistics st2.daily := by
  obtain ⟨s1, hr1⟩ := h1
  obtain ⟨s2, hr2⟩ := h2
  have hnf1 : ∀ x, ¬ TrialStep cfg strat ([], s1, st1) x := by
    intro x h
    cases h
  have hnf2 : ∀ x, ¬ TrialStep cfg strat ([], s2, st2) x := by
    intro x h
    cases h
  have heq := reflTransGen_nf_unique (TrialStep cfg strat)
    (fun a b c hb hc => trialStep_deterministic cfg strat a b c hb hc)
    hr1 hnf1 _ hr2 hnf2
  have hst : st1 = st2 := congrArg (fun c => c.2.2) heq
  exact ⟨by rw [hst], by rw [hst]⟩

/-- Witness for claim C2: two complete runs over the scenario bars, both
obtained from the executable replay, agree on trades and statistics. -/
theorem trial_run_deterministic_witness :
    scnRun.trades = scnRun.trades ∧
    calcStatistics scnRun.daily = calcStatistics scnRun.daily :=
  trial_run_deterministic scnCfg scnStrategy 1000000 scnBars scnRun scnRun
    (runTrial_runsTo scnCfg scnStrategy 1000000 scnBars)
    (runTrial_runsTo scnCfg scnStrategy 1000000 scnBars)

/- ------------------------------------------------------------------ -/
/- Part 15: case analyses of the engine operations                     -/
/- ------------------------------------------------------------------ -/

theorem crossOne_cases (cfg : EngineConfig) (bar : PriceBar) (b : EngineState) (j : Nat) :
    (crossOne cfg bar b j = b) ∨
    (crossOne cfg bar b j = { b with pending := b.pending ++ [j] }) ∨
    (∃ o p, b.orders j = some o ∧ o.status = OrderStatus.submitted ∧
      fillPriceOpt cfg bar o = some p ∧
      crossOne cfg bar b j =
        { b with
            orders := updateOrd b.orders j { o with status := OrderStatus.filled }
            trades := b.trades ++
              [{ order_id := j, fill_price := p, fill_volume := o.volume
                 timestamp := bar.date, commission := commissionFor cfg o p }]
            pos := applyTrade b.pos o.direction p o.volume
            dayTrades := b.dayTrades + 1
            dayCommission := b.dayCommission + commissionFor cfg o p }) := by
  unfold crossOne
  cases h : b.orders j with
  | none => left; rfl
  | some o =>
    by_cases hs : o.status = OrderStatus.submitted
    · cases hf : fillPriceOpt cfg bar o with
      | none =>
        right; left
        simp [hs, hf]
      | some p =>
        right; right
        exact ⟨o, p, rfl, hs, hf, by simp [hs, hf]⟩
    · left; simp [hs]

theorem submitOrder_cases (b : EngineState) (r : OrderReq) :
    (submitOrder b r =
      { b with
          orders := updateOrd b.orders b.nextId
            { id := b.nextId, direction := r.direction, intent := r.intent
              kind := r.kind, price := r.price, volume := r.volume
              status := OrderStatus.submitted }
          pending := b.pending ++ [b.nextId]
          nextId := b.nextId + 1 } ∧
      0 < r.volume ∧ (r.kind = OrderKind.market ∨ 0 < r.price)) ∨
    (submitOrder b r =
      { b with
          orders := updateOrd b.orders b.nextId
            { id := b.nextId, direction := r.direction, intent := r.intent
              kind := r.kind, price := r.price, volume := r.volume
              status := OrderStatus.rejected }
          errors := b.errors ++ [SimError.invalidOrder]
          nextId := b.nextId + 1 } ∧
      ¬ (0 < r.volume ∧ (r.kind = OrderKind.market ∨ 0 < r.price))) := by
  unfold submitOrder
  by_cases h : 0 < r.volume ∧ (r.kind = OrderKind.market ∨ 0 < r.price)
  · left
    rw [if_pos h]
    exact ⟨rfl, h⟩
  · right
    rw [if_neg h]
    exact ⟨rfl, h⟩

theorem expirePending_orders (cfg : EngineConfig) (b : EngineState) (i : Nat) :
    (expirePending cfg b).orders i = b.orders i ∨
    (∃ o, b.orders i = some o ∧ o.status = OrderStatus.submitted ∧
      (expirePending cfg b).orders i = some { o with status := OrderStatus.cancelled }) := by
  unfold expirePending
  by_cases hex : cfg.expireSameBar = true
  · rw [if_pos hex]
    cases h : b.orders i with
    | none => left; simp [h]
    | some o =>
      by_cases hc : b.pending.contains i ∧ o.status = OrderStatus.submitted
      · right
        refine ⟨o, rfl, hc.2, ?_⟩
        have hmem : i ∈ b.pending := by simpa using hc.1
        simp [h, hmem, hc.2]
      · left
        have hnc : ¬ (i ∈ b.pending ∧ o.status = OrderStatus.submitted) := by
          simpa using hc
        simp [h, hnc]
  · rw [if_neg hex]
    left
    rfl

theorem expirePending_rest (cfg : EngineConfig) (b : EngineState) :
    (expirePending cfg b).trades = b.trades ∧ (expirePending cfg b).nextId = b.nextId := by
  unfold expirePending
  by_cases hex : cfg.expireSameBar = true
  · rw [if_pos hex]
    exact ⟨rfl, rfl⟩
  · rw [if_neg hex]
    exact ⟨rfl, rfl⟩

theorem markDay_rest (bar : PriceBar) (b : EngineState) :
    (markDay bar b).orders = b.orders ∧ (markDay bar b).trades = b.trades ∧
    (markDay bar b).nextId = b.nextId :=
  ⟨rfl, rfl, rfl⟩

theorem crossOne_nextId (cfg : EngineConfig) (bar : PriceBar) (b : EngineState) (j : Nat) :
    (crossOne cfg bar b j).nextId = b.nextId := by
  unfold crossOne
  repeat' split
  all_goals rfl

/- ------------------------------------------------------------------ -/
/- Part 16: fresh-id discipline of the order log                       -/
/- ------------------------------------------------------------------ -/

theorem crossOne_nid (cfg : EngineConfig) (bar : PriceBar) (b : EngineState) (j : Nat)
    (hN : ∀ k, b.nextId ≤ k → b.orders k = none) :
    ∀ k, (crossOne cfg bar b j).nextId ≤ k → (crossOne cfg bar b j).orders k = none := by
  intro k hk
  rw [crossOne_nextId] at hk
  rcases crossOne_cases cfg bar b j with he | he | ⟨o, p, hbo, -, -, he⟩
  · rw [he]
    exact hN k hk
  · rw [he]
    exact hN k hk
  · rw [he]
    have hkj : k ≠ j := by
      intro hkj
      subst hkj
      rw [hN k hk] at hbo
      exact Option.noConfusion hbo
    simp only [updateOrd, if_neg hkj]
    exact hN k hk

theorem submitOrder_nid (b : EngineState) (r : OrderReq)
    (hN : ∀ k, b.nextId ≤ k → b.orders k = none) :
    ∀ k, (submitOrder b r).nextId ≤ k → (submitOrder b r).orders k = none := by
  intro k hk
  rcases submitOrder_cases b r with ⟨he, -⟩ | ⟨he, -⟩ <;>
  · rw [he] at hk ⊢
    simp only at hk
    have hkj : k ≠ b.nextId := by omega
    simp only [updateOrd, if_neg hkj]
    exact hN k (by omega)

theorem expirePending_nid (cfg : EngineConfig) (b : EngineState)
    (hN : ∀ k, b.nextId ≤ k → b.orders k = none) :
    ∀ k, (expirePending cfg b).nextId ≤ k → (expirePending cfg b).orders k = none := by
  intro k hk
  have hnx : (expirePending cfg b).nextId = b.nextId := (expirePending_rest cfg b).2
  rw [hnx] at hk
  rcases expirePending_orders cfg b k with he | ⟨o, hbo, -, -⟩
  · rw [he]
    exact hN k hk
  · rw [hN k hk] at hbo
    exact Option.noConfusion hbo

theorem crossPending_nid (cfg : EngineConfig) (bar : PriceBar) (b : EngineState)
    (hN : ∀ k, b.nextId ≤ k → b.orders k = none) :
    ∀ k, (crossPending cfg bar b).nextId ≤ k → (crossPending cfg bar b).orders k = none := by
  unfold crossPending
  exact foldl_pres (crossOne cfg bar)
    (fun s => ∀ k, s.nextId ≤ k → s.orders k = none)
    (fun s j hs => crossOne_nid cfg bar s j hs)
    b.pending { b with pending := [] } hN

theorem stepBar_nid (cfg : EngineConfig) (bar : PriceBar) (reqs : List OrderReq)
    (b : EngineState) (hN : ∀ k, b.nextId ≤ k → b.orders k = none) :
    ∀ k, (stepBar cfg bar reqs b).nextId ≤ k → (stepBar cfg bar reqs b).orders k = none := by
  unfold stepBar
  intro k hk
  have h1 := crossPending_nid cfg bar b hN
  have h2 := expirePending_nid cfg (crossPending cfg bar b) h1
  have h3 := foldl_pres submitOrder
    (fun s => ∀ m, s.nextId ≤ m → s.orders m = none)
    (fun s r hs => submitOrder_nid s r hs)
    reqs (expirePending cfg (crossPending cfg bar b)) h2
  have hmo : (markDay bar (reqs.foldl submitOrder
      (expirePending cfg (crossPending cfg bar b)))).orders =
      (reqs.foldl submitOrder (expirePending cfg (crossPending cfg bar b))).orders := rfl
  have hmn : (markDay bar (reqs.foldl submitOrder
      (expirePending cfg (crossPending cfg bar b)))).nextId =
      (reqs.foldl submitOrder (expirePending cfg (crossPending cfg bar b))).nextId := rfl
  rw [hmo]
  rw [hmn] at hk
  exact h3 k hk

theorem startPair_nid {σ : Type} (strat : Strategy σ) (capital : ℚ) :
    ∀ k, (startPair strat capital).2.nextId ≤ k →
      (startPair strat capital).2.orders k = none := by
  have h0 : ∀ k, (initState capital).nextId ≤ k → (initState capital).orders k = none := by
    intro k _
    rfl
  exact foldl_pres submitOrder
    (fun s => ∀ m, s.nextId ≤ m → s.orders m = none)
    (fun s r hs => submitOrder_nid s r hs)
    (strat.onStart strat.init).2 (initState capital) h0

theorem runBars_nid {σ : Type} (cfg : EngineConfig) (strat : Strategy σ)
    (bars : List PriceBar) (p : σ × EngineState)
    (hN : ∀ k, p.2.nextId ≤ k → p.2.orders k = none) :
    ∀ k, (runBars cfg strat bars p).2.nextId ≤ k →
      (runBars cfg strat bars p).2.orders k = none := by
  unfold runBars
  exact foldl_pres (stepPair cfg strat)
    (fun q : σ × EngineState => ∀ m, q.2.nextId ≤ m → q.2.orders m = none)
    (fun q bar hq => stepBar_nid cfg bar (strat.onBar q.1 bar).2 q.2 hq)
    bars p hN

/- ------------------------------------------------------------------ -/
/- Part 17: status monotonicity (claim C5)                             -/
/- ------------------------------------------------------------------ -/

theorem status_mono_compose (o o1 o2 : Order)
    (he1 : ({ o1 with status := o.status } : Order) = o)
    (hr1 : o1.status = o.status ∨ statusRank o.status < statusRank o1.status)
    (he2 : ({ o2 with status := o1.status } : Order) = o1)
    (hr2 : o2.status = o1.status ∨ statusRank o1.status < statusRank o2.status) :
    ({ o2 with status := o.status } : Order) = o ∧
    (o2.status = o.status ∨ statusRank o.status < statusRank o2.status) := by
  constructor
  · rw [← he1, ← he2]
  · rcases hr1 with e1 | l1
    · rcases hr2 with e2 | l2
      · left
        rw [e2, e1]
      · right
        rw [e1] at l2
        exact l2
    · rcases hr2 with e2 | l2
      · right
        rw [e2]
        exact l1
      · right
        exact Nat.lt_trans l1 l2

theorem crossOne_mono (cfg : EngineConfig) (bar : PriceBar) (b : EngineState)
    (j i : Nat) (o : Order) (h : b.orders i = some o) :
    ∃ o', (crossOne cfg bar b j).orders i = some o' ∧
      ({ o' with status := o.status } : Order) = o ∧
      (o'.status = o.status ∨ statusRank o.status < statusRank o'.status) := by
  rcases crossOne_orders_cases cfg bar b j with he | ⟨oo, p, hbo, hsub, -, he⟩
  · exact ⟨o, by rw [he]; exact h, rfl, Or.inl rfl⟩
  · by_cases hij : i = j
    · subst hij
      rw [h] at hbo
      injection hbo with hoo
      subst hoo
      refine ⟨{ o with status := OrderStatus.filled }, ?_, rfl, Or.inr ?_⟩
      · rw [he]
        simp [updateOrd]
      · rw [hsub]
        simp [statusRank]
    · refine ⟨o, ?_, rfl, Or.inl rfl⟩
      rw [he]
      simp only [updateOrd, if_neg hij]
      exact h

theorem expirePending_mono (cfg : EngineConfig) (b : EngineState)
    (i : Nat) (o : Order) (h : b.orders i = some o) :
    ∃ o', (expirePending cfg b).orders i = some o' ∧
      ({ o' with status := o.status } : Order) = o ∧
      (o'.status = o.status ∨ statusRank o.status < statusRank o'.status) := by
  rcases expirePending_orders cfg b i with he | ⟨oo, hbo, hsub, he⟩
  · exact ⟨o, by rw [he]; exact h, rfl, Or.inl rfl⟩
  · rw [h] at hbo
    injection hbo with hoo
    subst hoo
    refine ⟨{ o with status := OrderStatus.cancelled }, he, rfl, Or.inr ?_⟩
    rw [hsub]
    simp [statusRank]

theorem submitOrder_keep (b : EngineState) (r : OrderReq)
    (hN : ∀ k, b.nextId ≤ k → b.orders k = none)
    (i : Nat) (o : Order) (h : b.orders i = some o) :
    (submitOrder b r).orders i = some o := by
  have hi : i ≠ b.nextId := by
    intro hh
    rw [hh] at h
    rw [hN b.nextId le_rfl] at h
    exact Option.noConfusion h
  rcases submitOrder_cases b r with ⟨he, -⟩ | ⟨he, -⟩ <;>
  · rw [he]
    simp only [updateOrd, if_neg hi]
    exact h

theorem foldl_submit_keep (reqs : List OrderReq) (s : EngineState)
    (hN : ∀ k, s.nextId ≤ k → s.orders k = none)
    (i : Nat) (o : Order) (h : s.orders i = some o) :
    (reqs.foldl submitOrder s).orders i = some o := by
  have hp := foldl_pres submitOrder
    (fun t => (∀ k, t.nextId ≤ k → t.orders k = none) ∧ t.orders i = some o)
    (fun t r ht => ⟨submitOrder_nid t r ht.1, submitOrder_keep t r ht.1 i o ht.2⟩)
    reqs s ⟨hN, h⟩
  exact hp.2

theorem crossPending_mono (cfg : EngineConfig) (bar : PriceBar) (b : EngineState)
    (i : Nat) (o : Order) (h : b.orders i = some o) :
    ∃ o', (crossPending cfg bar b).orders i = some o' ∧
      ({ o' with status := o.status } : Order) = o ∧
      (o'.status = o.status ∨ statusRank o.status < statusRank o'.status) := by
  unfold crossPending
  refine foldl_pres (crossOne cfg bar)
    (fun s => ∀ (i : Nat) (o : Order), b.orders i = some o →
      ∃ o', s.orders i = some o' ∧
        ({ o' with status := o.status } : Order) = o ∧
        (o'.status = o.status ∨ statusRank o.status < statusRank o'.status))
    ?_ b.pending { b with pending := [] } ?_ i o h
  · intro s j hs i o hio
    obtain ⟨o1, h1, he1, hr1⟩ := hs i o hio
    obtain ⟨o2, h2, he2, hr2⟩ := crossOne_mono cfg bar s j i o1 h1
    obtain ⟨hc1, hc2⟩ := status_mono_compose o o1 o2 he1 hr1 he2 hr2
    exact ⟨o2, h2, hc1, hc2⟩
  · intro i o hio
    exact ⟨o, hio, rfl, Or.inl rfl⟩

theorem stepBar_mono (cfg : EngineConfig) (bar : PriceBar) (reqs : List OrderReq)
    (b : EngineState) (hN : ∀ k, b.nextId ≤ k → b.orders k = none)
    (i : Nat) (o : Order) (h : b.orders i = some o) :
    ∃ o', (stepBar cfg bar reqs b).orders i = some o' ∧
      ({ o' with status := o.status } : Order) = o ∧
      (o'.status = o.status ∨ statusRank o.status < statusRank o'.status) := by
  obtain ⟨o1, h1, he1, hr1⟩ := crossPending_mono cfg bar b i o h
  obtain ⟨o2, h2, he2, hr2⟩ := expirePending_mono cfg (crossPending cfg bar b) i o1 h1
  obtain ⟨hc1, hc2⟩ := status_mono_compose o o1 o2 he1 hr1 he2 hr2
  have hN1 := crossPending_nid cfg bar b hN
  have hN2 := expirePending_nid cfg (crossPending cfg bar b) hN1
  have h3 := foldl_submit_keep reqs (expirePending cfg (crossPending cfg bar b)) hN2 i o2 h2
  exact ⟨o2, h3, hc1, hc2⟩

theorem runBars_mono {σ : Type} (cfg : EngineConfig) (strat : Strategy σ)
    (bars : List PriceBar) :
    ∀ (p : σ × EngineState), (∀ k, p.2.nextId ≤ k → p.2.orders k = none) →
      ∀ (i : Nat) (o : Order), p.2.orders i = some o →
        ∃ o', (runBars cfg strat bars p).2.orders i = some o' ∧
          ({ o' with status := o.status } : Order) = o ∧
          (o'.status = o.status ∨ statusRank o.status < statusRank o'.status) := by
  induction bars with
  | nil =>
    intro p _ i o h
    exact ⟨o, h, rfl, Or.inl rfl⟩
  | cons bar bs ih =>
    intro p hN i o h
    obtain ⟨o1, h1, he1, hr1⟩ := stepBar_mono cfg bar (strat.onBar p.1 bar).2 p.2 hN i o h
    have hN1 : ∀ k, (stepPair cfg strat p bar).2.nextId ≤ k →
        (stepPair cfg strat p bar).2.orders k = none :=
      stepBar_nid cfg bar (strat.onBar p.1 bar).2 p.2 hN
    obtain ⟨o2, h2, he2, hr2⟩ := ih (stepPair cfg strat p bar) hN1 i o1 h1
    obtain ⟨hc1, hc2⟩ := status_mono_compose o o1 o2 he1 hr1 he2 hr2
    refine ⟨o2, ?_, hc1, hc2⟩
    have hrb : runBars cfg strat (bar :: bs) p = runBars cfg strat bs (stepPair cfg strat p bar) := by
      unfold runBars
      rw [List.foldl_cons]
    rw [hrb]
    exact h2

/-- Claim C5: over a run, every order's status evolves monotonically along the
lifecycle order Submitted < PartiallyFilled < terminal — at any later point of
the same run the order still exists with all non-status fields unchanged, its
status either equal or of strictly larger rank (so no state is ever revisited),
and once in a terminal status (Filled, Cancelled, Rejected) the status never
changes again. -/
theorem order_status_monotone {σ : Type} (cfg : EngineConfig) (strat : Strategy σ)
    (capital : ℚ) (bars1 bars2 : List PriceBar) (i : Nat) (o : Order)
    (h : (runTrial cfg strat capital bars1).orders i = some o) :
    ∃ o', (runTrial cfg strat capital (bars1 ++ bars2)).orders i = some o' ∧
      ({ o' with status := o.status } : Order) = o ∧
      (o'.status = o.status ∨ statusRank o.status < statusRank o'.status) ∧
      (isTerminalStatus o.status = true → o'.status = o.status) := by
  have happ : runBars cfg strat (bars1 ++ bars2) (startPair strat capital) =
      runBars cfg strat bars2 (runBars cfg strat bars1 (startPair strat capital)) := by
    unfold runBars
    rw [List.foldl_append]
  have hN0 := startPair_nid strat capital
  have hN1 := runBars_nid cfg strat bars1 (startPair strat capital) hN0
  obtain ⟨o', h', he, hr⟩ := runBars_mono cfg strat bars2
    (runBars cfg strat bars1 (startPair strat capital)) hN1 i o h
  refine ⟨o', ?_, he, hr, ?_⟩
  · unfold runTrial
    rw [happ]
    exact h'
  · intro hterm
    rcases hr with he2 | hlt
    · exact he2
    · exfalso
      have hle : statusRank o'.status ≤ 2 := by
        cases o'.status
        all_goals decide
      have h2 : 2 ≤ statusRank o.status := by
        cases hos : o.status
        all_goals rw [hos] at hterm
        all_goals first
          | decide
          | exact absurd hterm (by decide)
      omega

/-- Witness for claim C5: the scenario's limit order, filled on day 1, still
exists unchanged and Filled after the remaining two days are replayed. -/
theorem order_status_monotone_witness :
    ∃ o', (runTrial scnCfg scnStrategy 1000000
        ([{ date := 1, open_ := 100, high := 105, low := 99, close := 104, volume := 1 }] ++
         [{ date := 2, open_ := 101, high := 106, low := 100, close := 103, volume := 1 },
          { date := 3, open_ := 103, high := 108, low := 101, close := 107, volume := 1 }])).orders 0 =
      some o' ∧
      ({ o' with status := OrderStatus.filled } : Order) =
        { id := 0, direction := .buy, intent := .openPos, kind := .limit,
          price := 100, volume := 1, status := OrderStatus.filled } ∧
      (o'.status = OrderStatus.filled ∨
        statusRank OrderStatus.filled < statusRank o'.status) ∧
      (isTerminalStatus OrderStatus.filled = true → o'.status = OrderStatus.filled) :=
  order_status_monotone scnCfg scnStrategy 1000000
    [{ date := 1, open_ := 100, high := 105, low := 99, close := 104, volume := 1 }]
    [{ date := 2, open_ := 101, high := 106, low := 100, close := 103, volume := 1 },
     { date := 3, open_ := 103, high := 108, low := 101, close := 107, volume := 1 }]
    0
    { id := 0, direction := .buy, intent := .openPos, kind := .limit,
      price := 100, volume := 1, status := OrderStatus.filled }
    (by norm_num [runTrial, runBars, startPair, stepPair, stepBar, markDay, crossPending,
      crossOne, expirePending, submitOrder, initState, scnStrategy, scnCfg,
      fillPriceOpt, applyTrade, commissionFor, updateOrd, snapToTick])

/- ------------------------------------------------------------------ -/
/- Part 18: trade-volume accounting (claim C4)                         -/
/- ------------------------------------------------------------------ -/

theorem sumVol_append (k : Nat) (ts : List TradeRec) (t : TradeRec) :
    sumVol k (ts ++ [t]) = sumVol k ts + (if t.order_id = k then t.fill_volume else 0) := by
  unfold sumVol
  rw [List.filter_append, List.map_append, List.sum_append]
  by_cases h : t.order_id = k
  · simp [h]
  · simp [h]

theorem submitOrder_inv (b : EngineState) (r : OrderReq)
    (hN : ∀ k, b.nextId ≤ k → b.orders k = none)
    (hZ : ∀ k, b.orders k = none → sumVol k b.trades = 0)
    (hB : ∀ k o, b.orders k = some o → o.status ≠ OrderStatus.rejected →
      sumVol k b.trades ≤ o.volume)
    (hS : ∀ k o, b.orders k = some o → o.status = OrderStatus.submitted →
      sumVol k b.trades = 0)
    (hR : ∀ k o, b.orders k = some o → o.status = OrderStatus.rejected →
      sumVol k b.trades = 0)
    (hV : ∀ k o, b.orders k = some o → o.status ≠ OrderStatus.rejected → 0 < o.volume) :
    (∀ k, (submitOrder b r).orders k = none → sumVol k (submitOrder b r).trades = 0) ∧
    (∀ k o, (submitOrder b r).orders k = some o → o.status ≠ OrderStatus.rejected →
      sumVol k (submitOrder b r).trades ≤ o.volume) ∧
    (∀ k o, (submitOrder b r).orders k = some o → o.status = OrderStatus.submitted →
      sumVol k (submitOrder b r).trades = 0) ∧
    (∀ k o, (submitOrder b r).orders k = some o → o.status = OrderStatus.rejected →
      sumVol k (submitOrder b r).trades = 0) ∧
    (∀ k o, (submitOrder b r).orders k = some o → o.status ≠ OrderStatus.rejected →
      0 < o.volume) := by
  have hz0 : sumVol b.nextId b.trades = 0 := hZ b.nextId (hN b.nextId le_rfl)
  rcases submitOrder_cases b r with ⟨he, hval, -⟩ | ⟨he, -⟩
  · rw [he]
    simp only [updateOrd]
    refine ⟨?_, ?_, ?_, ?_, ?_⟩
    · intro k hk
      by_cases hkn : k = b.nextId
      · rw [if_pos hkn] at hk
        exact Option.noConfusion hk
      · rw [if_neg hkn] at hk
        exact hZ k hk
    · intro k o hk hrej
      by_cases hkn : k = b.nextId
      · rw [if_pos hkn] at hk
        injection hk with hk
        subst hk
        subst hkn
        rw [hz0]
        exact le_of_lt hval
      · rw [if_neg hkn] at hk
        exact hB k o hk hrej
    · intro k o hk hsub
      by_cases hkn : k = b.nextId
      · subst hkn
        exact hz0
      · rw [if_neg hkn] at hk
        exact hS k o hk hsub
    · intro k o hk hrej
      by_cases hkn : k = b.nextId
      · subst hkn
        exact hz0
      · rw [if_neg hkn] at hk
        exact hR k o hk hrej
    · intro k o hk hrej
      by_cases hkn : k = b.nextId
      · rw [if_pos hkn] at hk
        injection hk with hk
        subst hk
        exact hval
      · rw [if_neg hkn] at hk
        exact hV k o hk hrej
  · rw [he]
    simp only [updateOrd]
    refine ⟨?_, ?_, ?_, ?_, ?_⟩
    · intro k hk
      by_cases hkn : k = b.nextId
      · rw [if_pos hkn] at hk
        exact Option.noConfusion hk
      · rw [if_neg hkn] at hk
        exact hZ k hk
    · intro k o hk hrej
      by_cases hkn : k = b.nextId
      · rw [if_pos hkn] at hk
        injection hk with hk
        subst hk
        exact absurd rfl hrej
      · rw [if_neg hkn] at hk
        exact hB k o hk hrej
    · intro k o hk hsub
      by_cases hkn : k = b.nextId
      · subst hkn
        exact hz0
      · rw [if_neg hkn] at hk
        exact hS k o hk hsub
    · intro k o hk hrej
      by_cases hkn : k = b.nextId
      · subst hkn
        exact hz0
      · rw [if_neg hkn] at hk
        exact hR k o hk hrej
    · intro k o hk hrej
      by_cases hkn : k = b.nextId
      · rw [if_pos hkn] at hk
        injection hk with hk
        subst hk
        exact absurd rfl hrej
      · rw [if_neg hkn] at hk
        exact hV k o hk hrej

theorem crossOne_inv (cfg : EngineConfig) (bar : PriceBar) (b : EngineState) (j : Nat)
    (hZ : ∀ k, b.orders k = none → sumVol k b.trades = 0)
    (hB : ∀ k o, b.orders k = some o → o.status ≠ OrderStatus.rejected →
      sumVol k b.trades ≤ o.volume)
    (hS : ∀ k o, b.orders k = some o → o.status = OrderStatus.submitted →
      sumVol k b.trades = 0)
    (hR : ∀ k o, b.orders k = some o → o.status = OrderStatus.rejected →
      sumVol k b.trades = 0)
    (hV : ∀ k o, b.orders k = some o → o.status ≠ OrderStatus.rejected → 0 < o.volume) :
    (∀ k, (crossOne cfg bar b j).orders k = none →
      sumVol k (crossOne cfg bar b j).trades = 0) ∧
    (∀ k o, (crossOne cfg bar b j).orders k = some o → o.status ≠ OrderStatus.rejected →
      sumVol k (crossOne cfg bar b j).trades ≤ o.volume) ∧
    (∀ k o, (crossOne cfg bar b j).orders k = some o → o.status = OrderStatus.submitted →
      sumVol k (crossOne cfg bar b j).trades = 0) ∧
    (∀ k o, (crossOne cfg bar b j).orders k = some o → o.status = OrderStatus.rejected →
      sumVol k (crossOne cfg bar b j).trades = 0) ∧
    (∀ k o, (crossOne cfg bar b j).orders k = some o → o.status ≠ OrderStatus.rejected →
      0 < o.volume) := by
  rcases crossOne_cases cfg bar b j with he | he | ⟨o, p, hbo, hsub, -, he⟩
  · rw [he]
    exact ⟨hZ, hB, hS, hR, hV⟩
  · rw [he]
    exact ⟨hZ, hB, hS, hR, hV⟩
  · rw [he]
    simp only [updateOrd]
    have hsv : ∀ k, sumVol k (b.trades ++
        [{ order_id := j, fill_price := p, fill_volume := o.volume
           timestamp := bar.date, commission := commissionFor cfg o p }]) =
        sumVol k b.trades + (if j = k then o.volume else 0) := by
      intro k
      rw [sumVol_append]
    have hzj : sumVol j b.trades = 0 := hS j o hbo hsub
    have hvj : 0 < o.volume := hV j o hbo (by rw [hsub]; simp)
    refine ⟨?_, ?_, ?_, ?_, ?_⟩
    · intro k hk
      by_cases hkj : k = j
      · rw [if_pos hkj] at hk
        exact Option.noConfusion hk
      · rw [if_neg hkj] at hk
        rw [hsv k, if_neg (fun hh => hkj hh.symm), add_zero]
        exact hZ k hk
    · intro k oo hk hrej
      by_cases hkj : k = j
      · rw [if_pos hkj] at hk
        injection hk with hk
        subst hk
        subst hkj
        rw [hsv k, if_pos rfl, hzj, zero_add]
      · rw [if_neg hkj] at hk
        rw [hsv k, if_neg (fun hh => hkj hh.symm), add_zero]
        exact hB k oo hk hrej
    · intro k oo hk hsub2
      by_cases hkj : k = j
      · rw [if_pos hkj] at hk
        injection hk with hk
        rw [← hk] at hsub2
        exact absurd hsub2 (by simp)
      · rw [if_neg hkj] at hk
        rw [hsv k, if_neg (fun hh => hkj hh.symm), add_zero]
        exact hS k oo hk hsub2
    · intro k oo hk hrej
      by_cases hkj : k = j
      · rw [if_pos hkj] at hk
        injection hk with hk
        rw [← hk] at hrej
        exact absurd hrej (by simp)
      · rw [if_neg hkj] at hk
        rw [hsv k, if_neg (fun hh => hkj hh.symm), add_zero]
        exact hR k oo hk hrej
    · intro k oo hk hrej
      by_cases hkj : k = j
      · rw [if_pos hkj] at hk
        injection hk with hk
        subst hk
        exact hvj
      · rw [if_neg hkj] at hk
        exact hV k oo hk hrej

theorem expirePending_inv (cfg : EngineConfig) (b : EngineState)
    (hZ : ∀ k, b.orders k = none → sumVol k b.trades = 0)
    (hB : ∀ k o, b.orders k = some o → o.status ≠ OrderStatus.rejected →
      sumVol k b.trades ≤ o.volume)
    (hS : ∀ k o, b.orders k = some o → o.status = OrderStatus.submitted →
      sumVol k b.trades = 0)
    (hR : ∀ k o, b.orders k = some o → o.status = OrderStatus.rejected →
      sumVol k b.trades = 0)
    (hV : ∀ k o, b.orders k = some o → o.status ≠ OrderStatus.rejected → 0 < o.volume) :
    (∀ k, (expirePending cfg b).orders k = none →
      sumVol k (expirePending cfg b).trades = 0) ∧
    (∀ k o, (expirePending cfg b).orders k = some o → o.status ≠ OrderStatus.rejected →
      sumVol k (expirePending cfg b).trades ≤ o.volume) ∧
    (∀ k o, (expirePending cfg b).orders k = some o → o.status = OrderStatus.submitted →
      sumVol k (expirePending cfg b).trades = 0) ∧
    (∀ k o, (expirePending cfg b).orders k = some o → o.status = OrderStatus.rejected →
      sumVol k (expirePending cfg b).trades = 0) ∧
    (∀ k o, (expirePending cfg b).orders k = some o → o.status ≠ OrderStatus.rejected →
      0 < o.volume) := by
  have htr : (expirePending cfg b).trades = b.trades := (expirePending_rest cfg b).1
  rw [htr]
  refine ⟨?_, ?_, ?_, ?_, ?_⟩
  · intro k hk
    rcases expirePending_orders cfg b k with he | ⟨o, hbo, -, he⟩
    · rw [he] at hk
      exact hZ k hk
    · rw [he] at hk
      exact Option.noConfusion hk
  · intro k oo hk hrej
    rcases expirePending_orders cfg b k with he | ⟨o, hbo, hsub, he⟩
    · rw [he] at hk
      exact hB k oo hk hrej
    · rw [he] at hk
      injection hk with hk
      subst hk
      rw [hS k o hbo hsub]
      exact le_of_lt (hV k o hbo (by rw [hsub]; simp))
  · intro k oo hk hsub2
    rcases expirePending_orders cfg b k with he | ⟨o, hbo, hsub, he⟩
    · rw [he] at hk
      exact hS k oo hk hsub2
    · rw [he] at hk
      injection hk with hk
      rw [← hk] at hsub2
      exact absurd hsub2 (by simp)
  · intro k oo hk hrej
    rcases expirePending_orders cfg b k with he | ⟨o, hbo, hsub, he⟩
    · rw [he] at hk
      exact hR k oo hk hrej
    · rw [he] at hk
      injection hk with hk
      rw [← hk] at hrej
      exact absurd hrej (by simp)
  · intro k oo hk hrej
    rcases expirePending_orders cfg b k with he | ⟨o, hbo, hsub, he⟩
    · rw [he] at hk
      exact hV k oo hk hrej
    · rw [he] at hk
      injection hk with hk
      subst hk
      exact hV k o hbo (by rw [hsub]; simp)

theorem crossPending_inv (cfg : EngineConfig) (bar : PriceBar) (b : EngineState)
    (hZ : ∀ k, b.orders k = none → sumVol k b.trades = 0)
    (hB : ∀ k o, b.orders k = some o → o.status ≠ OrderStatus.rejected →
      sumVol k b.trades ≤ o.volume)
    (hS : ∀ k o, b.orders k = some o → o.status = OrderStatus.submitted →
      sumVol k b.trades = 0)
    (hR : ∀ k o, b.orders k = some o → o.status = OrderStatus.rejected →
      sumVol k b.trades = 0)
    (hV : ∀ k o, b.orders k = some o → o.status ≠ OrderStatus.rejected → 0 < o.volume) :
    (∀ k, (crossPending cfg bar b).orders k = none →
      sumVol k (crossPending cfg bar b).trades = 0) ∧
    (∀ k o, (crossPending cfg bar b).orders k = some o → o.status ≠ OrderStatus.rejected →
      sumVol k (crossPending cfg bar b).trades ≤ o.volume) ∧
    (∀ k o, (crossPending cfg bar b).orders k = some o → o.status = OrderStatus.submitted →
      sumVol k (crossPending cfg bar b).trades = 0) ∧
    (∀ k o, (crossPending cfg bar b).orders k = some o → o.status = OrderStatus.rejected →
      sumVol k (crossPending cfg bar b).trades = 0) ∧
    (∀ k o, (crossPending cfg bar b).orders k = some o → o.status ≠ OrderStatus.rejected →
      0 < o.volume) := by
  unfold crossPending
  exact foldl_pres (crossOne cfg bar)
    (fun s =>
      (∀ k, s.orders k = none → sumVol k s.trades = 0) ∧
      (∀ k o, s.orders k = some o → o.status ≠ OrderStatus.rejected →
        sumVol k s.trades ≤ o.volume) ∧
      (∀ k o, s.orders k = some o → o.status = OrderStatus.submitted →
        sumVol k s.trades = 0) ∧
      (∀ k o, s.orders k = some o → o.status = OrderStatus.rejected →
        sumVol k s.trades = 0) ∧
      (∀ k o, s.orders k = some o → o.status ≠ OrderStatus.rejected → 0 < o.volume))
    (fun s j hs => crossOne_inv cfg bar s j hs.1 hs.2.1 hs.2.2.1 hs.2.2.2.1 hs.2.2.2.2)
    b.pending { b with pending := [] } ⟨hZ, hB, hS, hR, hV⟩

theorem stepBar_inv (cfg : EngineConfig) (bar : PriceBar) (reqs : List OrderReq)
    (b : EngineState)
    (hN : ∀ k, b.nextId ≤ k → b.orders k = none)
    (hZ : ∀ k, b.orders k = none → sumVol k b.trades = 0)
    (hB : ∀ k o, b.orders k = some o → o.status ≠ OrderStatus.rejected →
      sumVol k b.trades ≤ o.volume)
    (hS : ∀ k o, b.orders k = some o → o.status = OrderStatus.submitted →
      sumVol k b.trades = 0)
    (hR : ∀ k o, b.orders k = some o → o.status = OrderStatus.rejected →
      sumVol k b.trades = 0)
    (hV : ∀ k o, b.orders k = some o → o.status ≠ OrderStatus.rejected → 0 < o.volume) :
    (∀ k, (stepBar cfg bar reqs b).orders k = none →
      sumVol k (stepBar cfg bar reqs b).trades = 0) ∧
    (∀ k o, (stepBar cfg bar reqs b).orders k = some o → o.status ≠ OrderStatus.rejected →
      sumVol k (stepBar cfg bar reqs b).trades ≤ o.volume) ∧
    (∀ k o, (stepBar cfg bar reqs b).orders k = some o → o.status = OrderStatus.submitted →
      sumVol k (stepBar cfg bar reqs b).trades = 0) ∧
    (∀ k o, (stepBar cfg bar reqs b).orders k = some o → o.status = OrderStatus.rejected →
      sumVol k (stepBar cfg bar reqs b).trades = 0) ∧
    (∀ k o, (stepBar cfg bar reqs b).orders k = some o → o.status ≠ OrderStatus.rejected →
      0 < o.volume) := by
  have h1 := crossPending_inv cfg bar b hZ hB hS hR hV
  have hN1 := crossPending_nid cfg bar b hN
  have h2 := expirePending_inv cfg (crossPending cfg bar b)
    h1.1 h1.2.1 h1.2.2.1 h1.2.2.2.1 h1.2.2.2.2
  have hN2 := expirePending_nid cfg (crossPending cfg bar b) hN1
  have h3 := foldl_pres submitOrder
    (fun s =>
      (∀ k, s.nextId ≤ k → s.orders k = none) ∧
      (∀ k, s.orders k = none → sumVol k s.trades = 0) ∧
      (∀ k o, s.orders k = some o → o.status ≠ OrderStatus.rejected →
        sumVol k s.trades ≤ o.volume) ∧
      (∀ k o, s.orders k = some o → o.status = OrderStatus.submitted →
        sumVol k s.trades = 0) ∧
      (∀ k o, s.orders k = some o → o.status = OrderStatus.rejected →
        sumVol k s.trades = 0) ∧
      (∀ k o, s.orders k = some o → o.status ≠ OrderStatus.rejected → 0 < o.volume))
    (fun s r hs =>
      ⟨submitOrder_nid s r hs.1,
        submitOrder_inv s r hs.1 hs.2.1 hs.2.2.1 hs.2.2.2.1 hs.2.2.2.2.1 hs.2.2.2.2.2⟩)
    reqs (expirePending cfg (crossPending cfg bar b))
    ⟨hN2, h2.1, h2.2.1, h2.2.2.1, h2.2.2.2.1, h2.2.2.2.2⟩
  exact ⟨h3.2.1, h3.2.2.1, h3.2.2.2.1, h3.2.2.2.2.1, h3.2.2.2.2.2⟩

/-- Claim C4: for every order in any run, at every point of the run, the sum
of `fill_volume` over the Trade records attributed to that order never exceeds
the order's requested volume; an order rejected at submission receives no
fill volume at all. -/
theorem trade_volume_bound {σ : Type} (cfg : EngineConfig) (strat : Strategy σ)
    (capital : ℚ) (bars : List PriceBar) (i : Nat) (o : Order)
    (h : (runTrial cfg strat capital bars).orders i = some o) :
    (o.status ≠ OrderStatus.rejected →
      sumVol i (runTrial cfg strat capital bars).trades ≤ o.volume) ∧
    (o.status = OrderStatus.rejected →
      sumVol i (runTrial cfg strat capital bars).trades = 0) := by
  have h0 : (∀ k, (initState capital).nextId ≤ k → (initState capital).orders k = none) ∧
      (∀ k, (initState capital).orders k = none → sumVol k (initState capital).trades = 0) ∧
      (∀ k o, (initState capital).orders k = some o → o.status ≠ OrderStatus.rejected →
        sumVol k (initState capital).trades ≤ o.volume) ∧
      (∀ k o, (initState capital).orders k = some o → o.status = OrderStatus.submitted →
        sumVol k (initState capital).trades = 0) ∧
      (∀ k o, (initState capital).orders k = some o → o.status = OrderStatus.rejected →
        sumVol k (initState capital).trades = 0) ∧
      (∀ k o, (initState capital).orders k = some o → o.status ≠ OrderStatus.rejected →
        0 < o.volume) := by
    refine ⟨fun k _ => rfl, fun k _ => rfl, ?_, ?_, ?_, ?_⟩
    all_goals intro k o hk
    all_goals exact Option.noConfusion hk
  have hstart := foldl_pres submitOrder
    (fun s =>
      (∀ k, s.nextId ≤ k → s.orders k = none) ∧
      (∀ k, s.orders k = none → sumVol k s.trades = 0) ∧
      (∀ k o, s.orders k = some o → o.status ≠ OrderStatus.rejected →
        sumVol k s.trades ≤ o.volume) ∧
      (∀ k o, s.orders k = some o → o.status = OrderStatus.submitted →
        sumVol k s.trades = 0) ∧
      (∀ k o, s.orders k = some o → o.status = OrderStatus.rejected →
        sumVol k s.trades = 0) ∧
      (∀ k o, s.orders k = some o → o.status ≠ OrderStatus.rejected → 0 < o.volume))
    (fun s r hs =>
      ⟨submitOrder_nid s r hs.1,
        submitOrder_inv s r hs.1 hs.2.1 hs.2.2.1 hs.2.2.2.1 hs.2.2.2.2.1 hs.2.2.2.2.2⟩)
    (strat.onStart strat.init).2 (initState capital) h0
  have hrun := foldl_pres (stepPair cfg strat)
    (fun q : σ × EngineState =>
      (∀ k, q.2.nextId ≤ k → q.2.orders k = none) ∧
      (∀ k, q.2.orders k = none → sumVol k q.2.trades = 0) ∧
      (∀ k o, q.2.orders k = some o → o.status ≠ OrderStatus.rejected →
        sumVol k q.2.trades ≤ o.volume) ∧
      (∀ k o, q.2.orders k = some o → o.status = OrderStatus.submitted →
        sumVol k q.2.trades = 0) ∧
      (∀ k o, q.2.orders k = some o → o.status = OrderStatus.rejected →
        sumVol k q.2.trades = 0) ∧
      (∀ k o, q.2.orders k = some o → o.status ≠ OrderStatus.rejected → 0 < o.volume))
    (fun q bar hq =>
      ⟨stepBar_nid cfg bar (strat.onBar q.1 bar).2 q.2 hq.1,
        stepBar_inv cfg bar (strat.onBar q.1 bar).2 q.2 hq.1 hq.2.1 hq.2.2.1
          hq.2.2.2.1 hq.2.2.2.2.1 hq.2.2.2.2.2⟩)
    bars (startPair strat capital) hstart
  exact ⟨fun hrej => hrun.2.2.1 i o h hrej, fun hrej => hrun.2.2.2.2.1 i o h hrej⟩

/-- Witness for claim C4: the scenario's single order, filled in full, has
total fill volume 1 which does not exceed its requested volume 1. -/
theorem trade_volume_bound_witness :
    sumVol 0 (runTrial scnCfg scnStrategy 1000000 scnBars).trades ≤ 1 :=
  (trade_volume_bound scnCfg scnStrategy 1000000 scnBars 0
    { id := 0, direction := .buy, intent := .openPos, kind := .limit,
      price := 100, volume := 1, status := OrderStatus.filled }
    (by norm_num [runTrial, runBars, startPair, stepPair, stepBar, markDay, crossPending,
      crossOne, expirePending, submitOrder, initState, scnStrategy, scnCfg, scnBars,
      fillPriceOpt, applyTrade, commissionFor, updateOrd, snapToTick])).1
    (by simp)
